import Mathlib

/-!
Verification of the tentoku Japanese tokenizer core against its
natural-language specification.

Python strings are modelled as lists of Unicode code points (`Str := List Nat`),
matching CPython's `str` semantics (indexing, slicing and `len` are by code
point).  Python `dict`s used as string→index maps are modelled as association
lists where a new binding is consed to the front (so lookup finds the most
recent binding, matching overwrite semantics).  The external
`unicodedata.normalize('NFC', ·)` call is modelled as a function parameter.

The static deinflection rule table (`tentoku/deinflect_rules.py`) and the
`tentoku._types` enums are not present in the source tree; they are modelled
from the specification (§3 "DeinflectRule", "Rule Index", "Reason", "WordType")
and the deinflection engine is parametric in the rule table.
-/

set_option maxRecDepth 4000

namespace Tentoku

/-- A Python string: a list of Unicode code points. -/
abbrev Str := List Nat

/-- Python `s[-n:]` (last `n` code points; whole string when `n ≥ len`). -/
def strTakeRight (n : Nat) (s : Str) : Str := s.drop (s.length - n)

/-- Python `s[:-n]` for `n ≥ 1` (drop the last `n` code points). -/
def strDropRight (n : Nat) (s : Str) : Str := s.take (s.length - n)

/-- `Modelled from the spec:` the `Reason` enumeration from the missing
`tentoku._types` module (§3 lists its values). -/
inductive Reason where
  | Polite | Past | PolitePast | Negative | PoliteNegative | Continuous | Te
  | Passive | Causative | CausativePassive | Potential | PotentialOrPassive
  | Volitional | Tai | Zu | Nu | Ba | Tara | MasuStem | ImperativeNegative
  | Respectful | Humble | Kansai | Tame | Sou | Sugiru | Adv | Noun | Chau
  | Toku | Ki | SuruVerbReason
  deriving DecidableEq

/- `Modelled from the spec:` the `WordType` bitmask from the missing
`tentoku._types` module (§3: terminal verb/adjective categories plus
intermediate-stem markers; `All` is the union of the terminal categories). -/
namespace WordType

def IchidanVerb : Nat := 1
def GodanVerb : Nat := 2
def IAdj : Nat := 4
def KuruVerb : Nat := 8
def SuruVerb : Nat := 16
def SpecialSuruVerb : Nat := 32
def NounVS : Nat := 64
def All : Nat := 127
def MasuStem : Nat := 128
def TaTeStem : Nat := 256
def DaDeStem : Nat := 512
def IrrealisStem : Nat := 1024

end WordType

/-- Bit-mask intersection test (`t & m` truthiness in Python). -/
def hasBit (t m : Nat) : Bool := t &&& m != 0

/-- `kana_to_hiragana` from `normalize_cy.pyx`: lower katakana U+30A1..30F6 by
0x60; map U+30F7..30FA to わ/ゐ/ゑ/を; leave everything else unchanged. -/
def kana_to_hiragana (text : Str) : Str :=
  text.map fun code =>
    if 0x30A1 ≤ code ∧ code ≤ 0x30F6 then code - 0x30A0 + 0x3040
    else if code = 0x30F7 then 0x308F
    else if code = 0x30F8 then 0x3090
    else if code = 0x30F9 then 0x3091
    else if code = 0x30FA then 0x3092
    else code

/-- `CandidateWord` (spec §3). -/
structure CandidateWord where
  word : Str
  type : Nat
  reason_chains : List (List Reason)
  deriving DecidableEq

/-- `Modelled from the spec:` a deinflection rule (§3 `DeinflectRule`).  The
rule table itself is absent from the source tree, so the engine below is
parametric in the rules.  `fromStr`/`toStr` model the `from`/`to` fields. -/
structure DeinflectRule where
  fromStr : Str
  toStr : Str
  fromType : Nat
  toType : Nat
  reasons : List Reason
  deriving DecidableEq

/-- `Modelled from the spec:` one entry of `get_deinflect_rule_groups()` —
rules sharing a common `from`-length (§3 "Rule Index"). -/
structure RuleGroup where
  fromLen : Nat
  rules : List DeinflectRule
  deriving DecidableEq

/-- The mutable state of a `deinflect` run: the growing `result` list and the
`result_index` word→index map (new bindings consed to the front, so lookup
returns the most recently written binding, like a Python dict). -/
structure DState where
  result : List CandidateWord
  idx : List (Str × Nat)
  deriving DecidableEq

/-- Lookup in the word→index map (`new_word in result_index` /
`result_index[new_word]`). -/
def idxFind : List (Str × Nat) → Str → Option Nat
  | [], _ => none
  | (k, v) :: rest, w => if k = w then some v else idxFind rest w

/-- Replace element `j` of a candidate list by `f` of it (in-place mutation of
`result[j]` in the Python source). -/
def modifyAt (l : List CandidateWord) (j : Nat) (f : CandidateWord → CandidateWord) :
    List CandidateWord :=
  match l.get? j with
  | none => l
  | some c => l.set j (f c)

/-- The masu-stem short-circuit (`deinflect_cy.pyx` lines 54–62): skip Ichidan
candidates whose sole reason chain is `[MasuStem]`. -/
def masuShort (c : CandidateWord) : Bool :=
  hasBit c.type WordType.IchidanVerb &&
    (match c.reason_chains with
     | [[r]] => r = Reason.MasuStem
     | _ => false)

/-- The stem-bits mask used by the Ichidan stem-forwarding test. -/
def stemMask : Nat := WordType.MasuStem ||| WordType.TaTeStem ||| WordType.IrrealisStem

/-- The "inapplicable grammatical combination" test of the stem-forwarding
step (`deinflect_cy.pyx` lines 74–80). -/
def inapplicableForm (c : CandidateWord) : Bool :=
  hasBit c.type WordType.IrrealisStem &&
    (match c.reason_chains with
     | (r₀ :: _) :: _ =>
         r₀ = Reason.Passive ∨ r₀ = Reason.Causative ∨ r₀ = Reason.CausativePassive
     | _ => false)

/-- Ichidan stem forwarding (`deinflect_cy.pyx` lines 67–91), parametric in
the appended suffix so that both source variants (`'る'` in the first, the
mojibake bytes in the optimized one) share the definition. -/
def stemForwardWith (suffix : Str) (s : DState) (c : CandidateWord) : DState :=
  if hasBit c.type stemMask then
    let reason : List (List Reason) :=
      if hasBit c.type WordType.MasuStem ∧ c.reason_chains = [] then [[Reason.MasuStem]]
      else []
    if inapplicableForm c then s
    else
      let new_word := c.word ++ suffix
      let new_candidate : CandidateWord :=
        { word := new_word
          type := WordType.IchidanVerb ||| WordType.KuruVerb
          reason_chains := c.reason_chains ++ reason }
      let result2 := s.result ++ [new_candidate]
      let idx2 :=
        if (idxFind s.idx new_word).isNone then (new_word, result2.length - 1) :: s.idx
        else s.idx
      ⟨result2, idx2⟩
  else s

/-- The reason-chain construction for a freshly created candidate
(`deinflect_cy.pyx` lines 140–165): deep-copy the parent chains, then either
rewrite Causative-over-PotentialOrPassive to CausativePassive, leave chains
untouched for a leading MasuStem, or prepend the rule's reasons onto the
first chain; with no chains, start a new chain from the rule's reasons. -/
def newChains (rule : DeinflectRule) (chains : List (List Reason)) : List (List Reason) :=
  if rule.reasons ≠ [] then
    match chains with
    | first :: rest =>
        if rule.reasons.head? = some Reason.Causative ∧
            first.head? = some Reason.PotentialOrPassive then
          (Reason.CausativePassive :: first.tail) :: rest
        else if rule.reasons.head? = some Reason.MasuStem ∧ first ≠ [] then
          first :: rest
        else
          (rule.reasons ++ first) :: rest
    | [] => [rule.reasons]
  else chains

/-- One rule application for candidate `i` (`deinflect_cy.pyx` lines
101–173).  `word_text`/`word_type` are the values cached before the rule
loop; the reason chains are re-read from the current `result[i]` because the
merge path can mutate it mid-loop. -/
def applyRule (s : DState) (i : Nat) (word_text : Str) (word_type : Nat)
    (ending hira : Str) (rule : DeinflectRule) : DState :=
  if ¬ hasBit word_type rule.fromType then s
  else if ending ≠ rule.fromStr ∧ hira ≠ rule.fromStr then s
  else
    let new_word := strDropRight rule.fromStr.length word_text ++ rule.toStr
    if new_word = [] then s
    else
      let chains_i := ((s.result.get? i).map CandidateWord.reason_chains).getD []
      if (chains_i.flatten).any (fun r => rule.reasons.contains r) then s
      else
        let createNew : DState :=
          let new_index := s.result.length
          let chains := newChains rule chains_i
          let new_candidate : CandidateWord :=
            { word := new_word, type := rule.toType, reason_chains := chains }
          ⟨s.result ++ [new_candidate], (new_word, new_index) :: s.idx⟩
        match idxFind s.idx new_word with
        | some j =>
            match s.result.get? j with
            | some existing =>
                if existing.type = rule.toType then
                  if rule.reasons ≠ [] then
                    ⟨modifyAt s.result j
                        (fun c => { c with reason_chains := rule.reasons :: c.reason_chains }),
                      s.idx⟩
                  else s
                else createNew
            | none => createNew
        | none => createNew

/-- One rule group of the first (linear-scan) variant (`deinflect_cy.pyx`
lines 94–99): skip groups longer than the word, otherwise extract the ending
once and try every rule of the group. -/
def applyGroup (s : DState) (i : Nat) (word_text : Str) (word_type : Nat)
    (g : RuleGroup) : DState :=
  if g.fromLen > word_text.length then s
  else
    let ending := strTakeRight g.fromLen word_text
    let hira := kana_to_hiragana ending
    g.rules.foldl (fun s' rule => applyRule s' i word_text word_type ending hira rule) s

/-- Processing of candidate `i` in the first variant: masu-stem
short-circuit, stem forwarding with `'る'` (U+308B), then rule application. -/
def processCandidate (groups : List RuleGroup) (s : DState) (i : Nat) : DState :=
  match s.result.get? i with
  | none => s
  | some c =>
      if masuShort c then s
      else
        let s1 := stemForwardWith [0x308B] s c
        groups.foldl (fun s' g => applyGroup s' i c.word c.type g) s1

/-- The BFS closure loop (`while i < len(result)`), with explicit fuel: one
unit is consumed per processed index, `none` means the loop did not reach the
end of the result list within the given fuel. -/
def deinflectLoop (groups : List RuleGroup) : Nat → DState → Nat → Option DState
  | 0, s, i => if i < s.result.length then none else some s
  | fuel + 1, s, i =>
      if i < s.result.length then
        deinflectLoop groups fuel (processCandidate groups s i) (i + 1)
      else some s

/-- The seed candidate's type: `0xffff ^ (TaTeStem | DaDeStem | IrrealisStem)`
(= `0xF8FF`, which in particular contains `MasuStem` and all terminal bits). -/
def seedType : Nat :=
  0xffff ^^^ (WordType.TaTeStem ||| WordType.DaDeStem ||| WordType.IrrealisStem)

/-- The seed candidate pushed before the closure loop. -/
def seedCand (word : Str) : CandidateWord :=
  { word := word, type := seedType, reason_chains := [] }

/-- The seed state: the original word with every terminal bit plus `MasuStem`,
indexed at position 0. -/
def initState (word : Str) : DState :=
  ⟨[seedCand word], [(word, 0)]⟩

/-- `deinflect` (first variant, `deinflect_cy.pyx` lines 17–183): run the
closure and keep only candidates whose type intersects `WordType.All`. -/
def deinflect (groups : List RuleGroup) (fuel : Nat) (word : Str) :
    Option (List CandidateWord) :=
  (deinflectLoop groups fuel (initState word) 0).map
    (fun s => s.result.filter (fun r => hasBit r.type WordType.All))

/-! ### The optimized variant (`deinflect_cy.pyx`, second version, lines 205–399)

Identical algorithm except that (a) the rule scan walks ending lengths
`min(7, len)` down to `1` and fetches candidate rules from the
`get_rules_by_ending()` map — first by the raw ending, then by its hiragana
folding when different — without re-comparing the ending against the rule's
`from` string, and (b) the Ichidan stem-forwarding appends the three code
points U+00E3 U+201A U+2039 (the byte sequence of `る` in UTF-8 read back in a
Windows-1252-style decoding) instead of `る` itself. -/

/-- Lookup in the `Modelled from the spec:` `get_rules_by_ending()` map
("all rules grouped by `from` string", spec §3 "Rule Index"); a missing key
yields no rules. -/
def byEndingFind : List (Str × List DeinflectRule) → Str → List DeinflectRule
  | [], _ => []
  | (k, v) :: rest, w => if k = w then v else byEndingFind rest w

/-- Whether the map has the key (`ending in rules_by_ending`). -/
def byEndingHas (m : List (Str × List DeinflectRule)) (k : Str) : Bool :=
  match m with
  | [] => false
  | (k2, _) :: rest => if k2 = k then true else byEndingHas rest k

/-- One rule application in the optimized variant: same as `applyRule` but
with no ending comparison (the by-ending index already selected the rule). -/
def applyRuleOpt (s : DState) (i : Nat) (word_text : Str) (word_type : Nat)
    (rule : DeinflectRule) : DState :=
  if ¬ hasBit word_type rule.fromType then s
  else
    let new_word := strDropRight rule.fromStr.length word_text ++ rule.toStr
    if new_word = [] then s
    else
      let chains_i := ((s.result.get? i).map CandidateWord.reason_chains).getD []
      if (chains_i.flatten).any (fun r => rule.reasons.contains r) then s
      else
        let createNew : DState :=
          let new_index := s.result.length
          let chains := newChains rule chains_i
          let new_candidate : CandidateWord :=
            { word := new_word, type := rule.toType, reason_chains := chains }
          ⟨s.result ++ [new_candidate], (new_word, new_index) :: s.idx⟩
        match idxFind s.idx new_word with
        | some j =>
            match s.result.get? j with
            | some existing =>
                if existing.type = rule.toType then
                  if rule.reasons ≠ [] then
                    ⟨modifyAt s.result j
                        (fun c => { c with reason_chains := rule.reasons :: c.reason_chains }),
                      s.idx⟩
                  else s
                else createNew
            | none => createNew
        | none => createNew

/-- Ending lengths `min(7, len)` down to `1`
(`for from_len in range(min(7, word_text_len), 0, -1)`). -/
def downFrom (n : Nat) : List Nat := (List.range n).reverse.map (· + 1)

/-- One ending length of the optimized variant's rule scan. -/
def applyEndingLen (byEnding : List (Str × List DeinflectRule)) (s : DState) (i : Nat)
    (word_text : Str) (word_type : Nat) (from_len : Nat) : DState :=
  let ending := strTakeRight from_len word_text
  let hira := kana_to_hiragana ending
  let matching :=
    (if byEndingHas byEnding ending then byEndingFind byEnding ending else []) ++
      (if hira ≠ ending ∧ byEndingHas byEnding hira then byEndingFind byEnding hira else [])
  matching.foldl (fun s' rule => applyRuleOpt s' i word_text word_type rule) s

/-- Processing of candidate `i` in the optimized variant (mojibake suffix). -/
def processCandidateOpt (byEnding : List (Str × List DeinflectRule)) (s : DState)
    (i : Nat) : DState :=
  match s.result.get? i with
  | none => s
  | some c =>
      if masuShort c then s
      else
        let s1 := stemForwardWith [0x00E3, 0x201A, 0x2039] s c
        (downFrom (min 7 c.word.length)).foldl
          (fun s' fl => applyEndingLen byEnding s' i c.word c.type fl) s1

/-- The optimized variant's closure loop. -/
def deinflectLoopOpt (byEnding : List (Str × List DeinflectRule)) :
    Nat → DState → Nat → Option DState
  | 0, s, i => if i < s.result.length then none else some s
  | fuel + 1, s, i =>
      if i < s.result.length then
        deinflectLoopOpt byEnding fuel (processCandidateOpt byEnding s i) (i + 1)
      else some s

/-- `deinflect` (optimized variant, `deinflect_cy.pyx` lines 205–399). -/
def deinflectOpt (byEnding : List (Str × List DeinflectRule)) (fuel : Nat) (word : Str) :
    Option (List CandidateWord) :=
  (deinflectLoopOpt byEnding fuel (initState word) 0).map
    (fun s => s.result.filter (fun r => hasBit r.type WordType.All))

/-! ### Data model for entries and results (spec §3; fields as consumed by
`sorting_cy.pyx` and `type_matching_cy.pyx`: `priority` and `info` are
comma-separated strings there, glosses carry a language tag, senses a list of
`misc` strings). -/

/-- Code points of a Lean string literal (all tag vocabulary is ASCII). -/
def strCodes (s : String) : Str := s.data.map Char.toNat

/-- Truthiness of an optional Python string (`None` and `''` are falsy). -/
def pyTruthyStr : Option Str → Bool
  | none => false
  | some s => s ≠ []

structure KanjiReading where
  match_range : Option (Nat × Nat)
  priority : Option Str
  info : Option Str
  deriving DecidableEq

structure KanaReading where
  match_range : Option (Nat × Nat)
  priority : Option Str
  info : Option Str
  no_kanji : Bool
  deriving DecidableEq

structure Gloss where
  lang : Option Str
  deriving DecidableEq

structure Sense where
  pos_tags : List Str
  glosses : List Gloss
  misc : List Str
  deriving DecidableEq

structure WordEntry where
  entry_id : Nat
  kanji_readings : List KanjiReading
  kana_readings : List KanaReading
  senses : List Sense
  deriving DecidableEq

structure WordResult where
  entry : WordEntry
  match_len : Nat
  reason_chains : Option (List (List Reason))
  deriving DecidableEq

/-! ### String helpers shared by the sorter and the type matcher -/

/-- Python `s.split(sep)` for a single-character separator. -/
def splitOn (sep : Nat) : Str → List Str
  | [] => [[]]
  | c :: rest =>
      let r := splitOn sep rest
      if c = sep then [] :: r
      else
        match r with
        | h :: t => (c :: h) :: t
        | [] => [[c]]

def isSpaceChar (c : Nat) : Bool := c ∈ [0x20, 0x09, 0x0A, 0x0B, 0x0C, 0x0D]

/-- Python `s.strip()` (ASCII whitespace suffices for the tag vocabulary). -/
def stripStr (s : Str) : Str :=
  ((s.dropWhile isSpaceChar).reverse.dropWhile isSpaceChar).reverse

/-- Split a comma-separated tag string and strip each part. -/
def splitStrip (s : Str) : List Str := (splitOn 0x2C s).map stripStr

/-- Python `sub in s` (substring containment). -/
def strContainsSub (sub : Str) : Str → Bool
  | [] => sub.isPrefixOf []
  | c :: t => sub.isPrefixOf (c :: t) || strContainsSub sub t

/-- Python `s.lower()`; ASCII case folding, which agrees with `str.lower` on
the (ASCII) POS tag vocabulary. -/
def strLower (s : Str) : Str :=
  s.map (fun c => if 0x41 ≤ c ∧ c ≤ 0x5A then c + 32 else c)

/-! ### Priority scoring (`sorting_cy.pyx` lines 14–135) -/

/-- The `PRIORITY_ASSIGNMENTS` table. -/
def PRIORITY_ASSIGNMENTS : List (Str × Nat) :=
  [(strCodes "i1", 50), (strCodes "i2", 20), (strCodes "n1", 40), (strCodes "n2", 20),
    (strCodes "s1", 32), (strCodes "s2", 20), (strCodes "g1", 30), (strCodes "g2", 15)]

/-- The `PRIORITY_MAP` table (full JMDict names to short codes). -/
def PRIORITY_MAP : List (Str × Str) :=
  [(strCodes "ichi1", strCodes "i1"), (strCodes "ichi2", strCodes "i2"),
    (strCodes "news1", strCodes "n1"), (strCodes "news2", strCodes "n2"),
    (strCodes "spec1", strCodes "s1"), (strCodes "spec2", strCodes "s2"),
    (strCodes "gai1", strCodes "g1"), (strCodes "gai2", strCodes "g2")]

def assocFind {α : Type} : List (Str × α) → Str → Option α
  | [], _ => none
  | (k, v) :: rest, w => if k = w then some v else assocFind rest w

/-- `normalize_priority`. -/
def normalize_priority (priority : Str) : Str :=
  if (assocFind PRIORITY_ASSIGNMENTS priority).isSome then priority
  else
    match assocFind PRIORITY_MAP priority with
    | some short => short
    | none => priority

/-- Python `int(s)` restricted to nonempty all-digit strings (the only shape
occurring in `nfNN` priority tags); anything else raises, modelled as `none`. -/
def parseNat : Str → Option Nat
  | s =>
      if s ≠ [] ∧ s.all (fun c => 0x30 ≤ c ∧ c ≤ 0x39) then
        some (s.foldl (fun a c => a * 10 + (c - 0x30)) 0)
      else none

/-- `get_priority_score`.  `int(48 - wordfreq / 2)` truncates toward zero,
i.e. equals `48 - (wordfreq + 1) / 2` in natural division for `0 < wf < 48`. -/
def get_priority_score (priority : Str) : Nat :=
  let normalized := normalize_priority priority
  match assocFind PRIORITY_ASSIGNMENTS normalized with
  | some v => v
  | none =>
      if (strCodes "nf").isPrefixOf normalized then
        match parseNat (normalized.drop 2) with
        | some wf => if 0 < wf ∧ wf < 48 then 48 - (wf + 1) / 2 else 0
        | none => 0
      else 0

/-- The fractional tail `Σ scores[i] / 10^i` for `i ≥ 1` of
`get_priority_sum` (CPython computes this in binary floating point; the exact
rational value is used here). -/
def prioTail : List Nat → Nat → ℚ
  | [], _ => 0
  | s :: rest, i => (s : ℚ) / (10 : ℚ) ^ i + prioTail rest (i + 1)

/-- `get_priority_sum`: top score plus decimally shifted lower scores, over
the scores sorted descending. -/
def get_priority_sum (priorities : List Str) : ℚ :=
  if priorities = [] then 0
  else
    let scores := (priorities.map get_priority_score).mergeSort (fun a b => decide (b ≤ a))
    match scores with
    | [] => 0
    | s0 :: rest => (s0 : ℚ) + prioTail rest 1

/-- `get_priority`: max over `0` and the truncated priority sums of the
matched readings carrying a priority string. -/
def get_priority (entry : WordEntry) : ℤ :=
  let step : List ℤ → Option (Nat × Nat) → Option Str → List ℤ := fun scores mr pr =>
    if mr.isSome ∧ pyTruthyStr pr then
      let priorities := splitStrip (pr.getD [])
      if priorities ≠ [] then scores ++ [⌊get_priority_sum priorities⌋] else scores
    else scores
  let scores := entry.kanji_readings.foldl (fun sc k => step sc k.match_range k.priority) [0]
  let scores := entry.kana_readings.foldl (fun sc k => step sc k.match_range k.priority) scores
  scores.foldl max 0

/-! ### Headword type (`get_kana_headword_type`, `sorting_cy.pyx` lines 138–230) -/

/-- Whether a sense counts as an English-language sense for the `uk` check:
no glosses at all, or some gloss with language `None`, `'eng'` or `'en'`. -/
def isEnSense (s : Sense) : Bool :=
  if s.glosses = [] then true
  else s.glosses.any (fun g => g.lang = none ∨ g.lang = some (strCodes "eng") ∨
    g.lang = some (strCodes "en"))

/-- `get_kana_headword_type`. -/
def get_kana_headword_type (entry : WordEntry) : Nat :=
  match entry.kana_readings.find? (fun k => k.match_range.isSome) with
  | none => 1
  | some matching_kana =>
      let is_reading_obscure :=
        pyTruthyStr matching_kana.info &&
          (splitStrip (matching_kana.info.getD [])).any
            (fun p => p ∈ [strCodes "ok", strCodes "rk", strCodes "sk", strCodes "ik"])
      if is_reading_obscure then 2
      else if entry.kanji_readings = [] then 1
      else if entry.kanji_readings.all (fun k =>
          pyTruthyStr k.info &&
            (splitStrip (k.info.getD [])).any
              (fun p => p ∈ [strCodes "rK", strCodes "sK", strCodes "iK"])) then 1
      else
        let matched_en_senses := entry.senses.filter isEnSense
        let uk_en_sense_count := (matched_en_senses.filter (fun s =>
          s.misc ≠ [] ∧ s.misc.any (fun m => strContainsSub (strCodes "uk") m))).length
        if matched_en_senses ≠ [] ∧ 2 * uk_en_sense_count ≥ matched_en_senses.length then 1
        else if matching_kana.no_kanji then 1
        else 2

/-! ### `sort_word_results` (`sorting_cy.pyx` lines 233–269) -/

structure SortMeta where
  reasons : Nat
  type : Nat
  priority : ℤ
  deriving DecidableEq

/-- The per-result sort metadata (`reasons`/`type`/`priority`). -/
def sortMetaFor (r : WordResult) : SortMeta :=
  let reasons :=
    match r.reason_chains with
    | some chains => if chains ≠ [] then (chains.map List.length).foldl max 0 else 0
    | none => 0
  { reasons := reasons
    type := get_kana_headword_type r.entry
    priority := get_priority r.entry }

/-- The `sort_meta` dict: keyed by `entry_id`, later results overwrite
earlier ones (new bindings consed to the front, lookup takes the first). -/
def buildSortMeta (results : List WordResult) : List (Nat × SortMeta) :=
  results.foldl (fun m r => (r.entry.entry_id, sortMetaFor r) :: m) []

def metaFind : List (Nat × SortMeta) → Nat → Option SortMeta
  | [], _ => none
  | (k, v) :: rest, w => if k = w then some v else metaFind rest w

/-- The sort key `(reasons, type, -priority)` of a result, looked up in the
`sort_meta` dict by `entry_id` (the fallback is unreachable for results that
were scanned into the dict — Python would raise a `KeyError`). -/
def sortKey (m : List (Nat × SortMeta)) (r : WordResult) : Nat × Nat × ℤ :=
  match metaFind m r.entry.entry_id with
  | some meta => (meta.reasons, meta.type, -meta.priority)
  | none => (0, 0, 0)

/-- Lexicographic comparison of Python key tuples. -/
def tupLE (a b : Nat × Nat × ℤ) : Bool :=
  decide (a.1 < b.1 ∨ (a.1 = b.1 ∧ (a.2.1 < b.2.1 ∨ (a.2.1 = b.2.1 ∧ a.2.2 ≤ b.2.2))))

/-- `sort_word_results`: build the metadata dict, then stably sort by key
(Python's `sorted` is a stable sort; `List.mergeSort` is the stable sort with
the same ascending-by-key output). -/
def sort_word_results (results : List WordResult) : List WordResult :=
  let meta := buildSortMeta results
  results.mergeSort (fun a b => tupLE (sortKey meta a) (sortKey meta b))

/-! ### Normalization (`normalize_cy.pyx`).  The external
`unicodedata.normalize('NFC', ·)` is a function parameter `nfc`. -/

def ZWNJ : Nat := 0x200C

/-- `half_to_full_width_num`. -/
def half_to_full_width_num (text : Str) : Str :=
  text.map fun code => if 0x30 ≤ code ∧ code ≤ 0x39 then code - 0x30 + 0xFF10 else code

/-- The `input_lengths` construction of `to_normalized`: each code point of
the NFC result contributes one entry (two for non-BMP code points, which
occupy two UTF-16 code units), recording `original_pos`, which advances by
one per NFC code point; one final sentinel entry. -/
def buildLengths : Str → Nat → List Nat
  | [], pos => [pos]
  | c :: rest, pos => (if c > 0xFFFF then [pos, pos] else [pos]) ++ buildLengths rest (pos + 1)

/-- `to_normalized`. -/
def to_normalized (nfc : Str → Str) (text : Str) : Str × List Nat :=
  let normalized := nfc text
  if normalized = [] then (normalized, [0])
  else (normalized, buildLengths normalized 0)

/-- The loop of `do_strip_zwnj`: walk the normalized text with index `i`,
keeping non-ZWNJ code points together with `input_lengths[i]`, and tracking
`last = input_lengths[i+1]` (or the final entry) for each kept code point. -/
def stripGo (il : List Nat) : Str → Nat → Nat → Str × List Nat × Nat
  | [], _, last => ([], [], last)
  | c :: rest, i, last =>
      if c ≠ ZWNJ then
        let entry : List Nat := if i < il.length then [il.getD i 0] else []
        let last2 := if i + 1 < il.length then il.getD (i + 1) 0 else il.getLastD 0
        let r := stripGo il rest (i + 1) last2
        (c :: r.1, entry ++ r.2.1, r.2.2)
      else stripGo il rest (i + 1) last

/-- `do_strip_zwnj`: append the tracked `last` as the sentinel — but only
when it is nonzero (`if last:`). -/
def do_strip_zwnj (normalized : Str) (input_lengths : List Nat) : Str × List Nat :=
  let r := stripGo input_lengths normalized 0 0
  (r.1, if r.2.2 ≠ 0 then r.2.1 ++ [r.2.2] else r.2.1)

/-- `normalize_input` with explicit options (defaults are `true`, `true`). -/
def normalize_input (nfc : Str → Str) (make_numbers_full_width strip_zwnj : Bool)
    (input_text : Str) : Str × List Nat :=
  if input_text = [] then ([], [0])
  else
    let n1 := if make_numbers_full_width then half_to_full_width_num input_text else input_text
    let p := to_normalized nfc n1
    let p := if strip_zwnj then do_strip_zwnj p.1 p.2 else p
    (p.1, if p.2 = [] then [0] else p.2)

/-- UTF-16 length of a string (specification-side, for stating claim C5:
non-BMP code points occupy two code units). -/
def utf16Len (s : Str) : Nat := (s.map (fun c => if c > 0xFFFF then 2 else 1)).sum

/-- Specification-side: the offset just past the last kept (non-ZWNJ) code
point of a string, in code points; `0` when every code point is stripped. -/
def lastKeptEnd (s : Str) : Nat :=
  s.length - (s.reverse.takeWhile (fun c => c == ZWNJ)).length

/-! ### Type matching (`type_matching_cy.pyx`, in `src/unnamed/part_003`) -/

/-- All POS tags of all senses of an entry. -/
def allPosTags (entry : WordEntry) : List Str := (entry.senses.map Sense.pos_tags).flatten

/-- The per-tag test of the IchidanVerb branch. -/
def posIchidan (p : Str) : Bool :=
  (strCodes "v1").isPrefixOf p || strContainsSub (strCodes "Ichidan verb") p ||
    p = strCodes "v1"

/-- The per-tag test of the GodanVerb branch. -/
def posGodan (p : Str) : Bool :=
  (strCodes "v5").isPrefixOf p || (strCodes "v4").isPrefixOf p ||
    strContainsSub (strCodes "Godan verb") p

/-- The per-tag test of the IAdj branch. -/
def posIAdj (p : Str) : Bool :=
  (strCodes "adj-i").isPrefixOf p || strContainsSub (strCodes "adjective") (strLower p)

/-- The per-tag test of the KuruVerb branch. -/
def posKuru (p : Str) : Bool :=
  p = strCodes "vk" || strContainsSub (strCodes "kuru verb") (strLower p)

/-- The per-tag test of the SuruVerb branch. -/
def posSuru (p : Str) : Bool :=
  p = strCodes "vs-i" || p = strCodes "vs-s" ||
    strContainsSub (strCodes "suru verb") (strLower p)

/-- The per-tag test of the SpecialSuruVerb branch. -/
def posSpecialSuru (p : Str) : Bool :=
  p = strCodes "vs-s" || p = strCodes "vz" ||
    strContainsSub (strCodes "suru verb") (strLower p)

/-- The per-tag test of the NounVS branch. -/
def posNounVS (p : Str) : Bool :=
  p = strCodes "vs" ||
    (strContainsSub (strCodes "noun or participle") (strLower p) &&
      strContainsSub (strCodes "suru") (strLower p))

/-- `entry_matches_type`: the chain of per-word-type checks, each guarded by
the corresponding bit and scanning all POS tags, with early `return True`
(modelled as an if-chain; the function has no branch for expression tags). -/
def entry_matches_type (entry : WordEntry) (word_type : Nat) : Bool :=
  let tags := allPosTags entry
  if tags = [] then false
  else if hasBit word_type WordType.IchidanVerb && tags.any posIchidan then true
  else if hasBit word_type WordType.GodanVerb && tags.any posGodan then true
  else if hasBit word_type WordType.IAdj && tags.any posIAdj then true
  else if hasBit word_type WordType.KuruVerb && tags.any posKuru then true
  else if hasBit word_type WordType.SuruVerb && tags.any posSuru then true
  else if hasBit word_type WordType.SpecialSuruVerb && tags.any posSpecialSuru then true
  else if hasBit word_type WordType.NounVS && tags.any posNounVS then true
  else false

/-! ### Variations, yoon, digits (`variations_cy.pyx`, `yoon_cy.pyx`,
word-search helpers) -/

def CHOON : Nat := 0x30FC

def choonVowels : List Nat := [0x3042, 0x3044, 0x3046, 0x3048, 0x304A]

/-- `expand_choon`: five variants replacing the first `ー`, else `[]`. -/
def expand_choon (text : Str) : List Str :=
  match text.findIdx? (· = CHOON) with
  | none => []
  | some first_pos =>
      choonVowels.map (fun v => text.take first_pos ++ [v] ++ text.drop (first_pos + 1))

def KYUUJITAI_OLD : Str := strCodes
  "舊體國學會實寫讀賣來歸變傳轉廣應當擔戰殘歲圖團圓壓圍醫鹽處廳與餘價兒產縣顯驗險獻嚴靈齡勞營榮櫻驛驢驤"

def KYUUJITAI_NEW : Str := strCodes
  "旧体国学会実写読売来帰変伝転広応当担戦残歳図団円圧囲医塩処庁与余価児産県顕験険献厳霊齢労営栄桜駅驢驤"

def kyuujitaiFind (c : Nat) : Option Nat :=
  ((KYUUJITAI_OLD.zip KYUUJITAI_NEW).find? (fun p => p.1 = c)).map (·.2)

/-- `kyuujitai_to_shinjitai` (the `changed` flag only picks between two equal
values, the mapped list and the original object). -/
def kyuujitai_to_shinjitai (text : Str) : Str :=
  let mapped := text.map (fun c => (kyuujitaiFind c).getD c)
  if text.any (fun c => (kyuujitaiFind c).isSome) then mapped else text

def YOON_START : List Nat :=
  [0x304D, 0x3057, 0x3061, 0x306B, 0x3072, 0x307F, 0x308A, 0x304E, 0x3058, 0x3073, 0x3074]

def SMALL_Y : List Nat := [0x3083, 0x3085, 0x3087]

/-- `ends_in_yoon`. -/
def ends_in_yoon (input_text : Str) : Bool :=
  if input_text.length < 2 then false
  else
    SMALL_Y.contains (input_text.getD (input_text.length - 1) 0) &&
      YOON_START.contains (input_text.getD (input_text.length - 2) 0)

def isDigitCommaPeriod (code : Nat) : Bool :=
  decide ((0x30 ≤ code ∧ code ≤ 0x39) ∨ (0xFF10 ≤ code ∧ code ≤ 0xFF19) ∨
    code = 0x2C ∨ code = 0xFF0C ∨ code = 0x3001 ∨
    code = 0x2E ∨ code = 0xFF0E ∨ code = 0x3002)

/-- `is_only_digits`. -/
def is_only_digits (text : Str) : Bool :=
  if text = [] then false else text.all isDigitCommaPeriod

/-! ### Word search (`word_search_cy.pyx`, in `src/DISCREPANCY_ANALYSIS.md`).
The dictionary is the external collaborator `get_words(word, max, matching)`;
`dfuel` is the fuel for the inner `deinflect` closure and `sfuel` the fuel
for the backtracking loop (each iteration shortens the input, so any
`sfuel > len(input)` is enough); the outer `Option` is `none` only on fuel
exhaustion. -/

/-- `lookup_candidates`: deinflect, look each candidate up, type-filter
non-identity candidates, drop already-seen entries, wrap, sort, truncate. -/
def lookup_candidates (groups : List RuleGroup) (dfuel : Nat)
    (dict : Str → Nat → Str → List WordEntry) (input_text : Str)
    (existing_entries : List Nat) (max_results : Nat) (input_length : Nat)
    (original_search_text : Option Str) : Option (List WordResult) :=
  (deinflect groups dfuel input_text).map (fun candidates =>
    let matching_text := original_search_text.getD input_text
    let candidate_results := candidates.enum.foldl (fun acc ci =>
      let candidate := ci.2
      let word_entries := dict candidate.word (max_results * 2) matching_text
      let word_entries :=
        if ci.1 ≠ 0 then word_entries.filter (fun e => entry_matches_type e candidate.type)
        else word_entries
      let word_entries := word_entries.filter (fun e => ¬ existing_entries.contains e.entry_id)
      acc ++ word_entries.map (fun e =>
        { entry := e, match_len := input_length
          reason_chains :=
            if candidate.reason_chains ≠ [] then some candidate.reason_chains else none })) []
    let candidate_results :=
      if candidate_results ≠ [] then sort_word_results candidate_results else candidate_results
    candidate_results.take max_results)

/-- The inner for-loop over variations: the first variant whose lookup is
non-empty wins (`some none` = no variant matched; outer `none` = fuel). -/
def tryVariants (groups : List RuleGroup) (dfuel : Nat)
    (dict : Str → Nat → Str → List WordEntry) (hv : List Nat) (max_results cil : Nat)
    (current : Str) : List Str → Option (Option (Str × List WordResult))
  | [] => some none
  | v :: rest =>
      match lookup_candidates groups dfuel dict v hv max_results cil (some current) with
      | none => none
      | some wr =>
          if wr ≠ [] then some (some (v, wr))
          else tryVariants groups dfuel dict hv max_results cil current rest

/-- The variation list of one iteration: the current input, then (when
variants are still enabled) the choon expansions and the kyuujitai
conversion when it changed something. -/
def variationsOf (current : Str) (include_variants : Bool) : List Str :=
  current ::
    (if include_variants then
      expand_choon current ++
        (let to_new := kyuujitai_to_shinjitai current
         if to_new ≠ current then [to_new] else [])
    else [])

/-- `current_original_len`: `input_lengths[len(current)]`, falling back to
the final entry on overrun. -/
def curOrigLen (input_lengths : List Nat) (current : Str) : Nat :=
  if current.length < input_lengths.length then input_lengths.getD current.length 0
  else input_lengths.getLastD 0

/-- The backtracking loop of `word_search`, accumulating `results` and
`longest_match`.  Fuel counts iterations; each iteration shortens the
input by 1 or 2 code units. -/
def wsLoop (groups : List RuleGroup) (dfuel : Nat)
    (dict : Str → Nat → Str → List WordEntry) (max_results : Nat)
    (input_lengths : List Nat) :
    Nat → Str → List Nat → List WordResult → Nat → Bool →
      Option (List WordResult × Nat)
  | 0, current, _, results, longest, _ =>
      if current = [] then some (results, longest) else none
  | fuel + 1, current, hv, results, longest, include_variants =>
      if current = [] then some (results, longest)
      else if is_only_digits current then some (results, longest)
      else
        let cil := curOrigLen input_lengths current
        match tryVariants groups dfuel dict hv max_results cil current
            (variationsOf current include_variants) with
        | none => none
        | some none =>
            if results.length ≥ max_results * 5 then some (results, longest)
            else
              let lts := if ends_in_yoon current then 2 else 1
              wsLoop groups dfuel dict max_results input_lengths fuel
                (current.take (current.length - lts)) hv results longest include_variants
        | some (some vw) =>
            let hv2 := hv ++ vw.2.map (fun w => w.entry.entry_id)
            let longest2 := max longest cil
            let results2 := results ++ vw.2
            if results2.length ≥ max_results * 5 then some (results2, longest2)
            else
              let lts := if ends_in_yoon vw.1 then 2 else 1
              wsLoop groups dfuel dict max_results input_lengths fuel
                (vw.1.take (vw.1.length - lts)) hv2 results2 longest2 false

structure WordSearchResult where
  data : List WordResult
  match_len : Nat
  more : Bool
  deriving DecidableEq

/-- `word_search` (the caller passes `input_lengths`, mirroring the
`input_lengths is not None` branch of the source): run the loop from the full
normalized input; `None` when no results, otherwise sort, truncate to
`max_results`, and report `longest_match`. -/
def word_search (groups : List RuleGroup) (dfuel : Nat)
    (dict : Str → Nat → Str → List WordEntry) (input_text : Str) (max_results : Nat)
    (input_lengths : List Nat) (sfuel : Nat) : Option (Option WordSearchResult) :=
  (wsLoop groups dfuel dict max_results input_lengths sfuel input_text [] [] 0 true).map
    (fun rl =>
      if rl.1 = [] then none
      else
        let data := (sort_word_results rl.1).take max_results
        some { data := data, match_len := rl.2, more := data.length ≥ max_results })

/-- Ghost replay of `wsLoop` for stating claim C7: identical branching, but
additionally accumulating the list of `current_original_len` values of the
iterations whose lookup succeeded ("the lengths at which a lookup produced a
result"). -/
def wsTrace (groups : List RuleGroup) (dfuel : Nat)
    (dict : Str → Nat → Str → List WordEntry) (max_results : Nat)
    (input_lengths : List Nat) :
    Nat → Str → List Nat → List WordResult → Nat → Bool → List Nat →
      Option (List WordResult × Nat × List Nat)
  | 0, current, _, results, longest, _, succ =>
      if current = [] then some (results, longest, succ) else none
  | fuel + 1, current, hv, results, longest, include_variants, succ =>
      if current = [] then some (results, longest, succ)
      else if is_only_digits current then some (results, longest, succ)
      else
        let cil := curOrigLen input_lengths current
        match tryVariants groups dfuel dict hv max_results cil current
            (variationsOf current include_variants) with
        | none => none
        | some none =>
            if results.length ≥ max_results * 5 then some (results, longest, succ)
            else
              let lts := if ends_in_yoon current then 2 else 1
              wsTrace groups dfuel dict max_results input_lengths fuel
                (current.take (current.length - lts)) hv results longest include_variants succ
        | some (some vw) =>
            let hv2 := hv ++ vw.2.map (fun w => w.entry.entry_id)
            let longest2 := max longest cil
            let results2 := results ++ vw.2
            if results2.length ≥ max_results * 5 then some (results2, longest2, succ ++ [cil])
            else
              let lts := if ends_in_yoon vw.1 then 2 else 1
              wsTrace groups dfuel dict max_results input_lengths fuel
                (vw.1.take (vw.1.length - lts)) hv2 results2 longest2 false (succ ++ [cil])

/-! ### Well-formedness of rule tables, and concrete instances -/

/-- `Modelled from the spec:` well-formedness of a deinflection rule for
tables conforming to §3/§7: non-empty `from` and `to`, non-zero type masks,
and the `toType` mask ranging over the defined `WordType` categories
(terminal bits plus stem bits, i.e. below `0x800`). -/
def RuleWF (r : DeinflectRule) : Prop :=
  r.fromStr ≠ [] ∧ r.toStr ≠ [] ∧ r.fromType ≠ 0 ∧ r.toType ≠ 0 ∧ r.toType < 0x800

instance (r : DeinflectRule) : Decidable (RuleWF r) := by
  unfold RuleWF; infer_instance

/-- All rules of a grouped table are well-formed. -/
def GroupsWF (groups : List RuleGroup) : Prop :=
  ∀ g ∈ groups, ∀ r ∈ g.rules, RuleWF r

instance (groups : List RuleGroup) : Decidable (GroupsWF groups) := by
  unfold GroupsWF; infer_instance

/-- Hypothesis for the amended termination claim: every rule strictly
shortens the word and produces a stem-free type. -/
def ShrinkStemFree (groups : List RuleGroup) : Prop :=
  ∀ g ∈ groups, ∀ r ∈ g.rules,
    r.toStr.length < r.fromStr.length ∧ r.toType &&& stemMask = 0

instance (groups : List RuleGroup) : Decidable (ShrinkStemFree groups) := by
  unfold ShrinkStemFree; infer_instance

/-- Whether a candidate list contains two candidates with the same
`(word, type)` pair. -/
def dupWordType : List CandidateWord → Bool
  | [] => false
  | c :: rest =>
      rest.any (fun d => d.word = c.word ∧ d.type = c.type) || dupWordType rest

/-- Whether some reason chain of a candidate repeats a reason. -/
def hasRepeatReason (c : CandidateWord) : Bool :=
  c.reason_chains.any (fun ch => decide (¬ ch.Nodup))

/-- A rule `あ→あ` landing in `TaTeStem` (well-formed per the spec's
constraints); used to exercise the unconditional stem-forwarding append. -/
def c3Rule : DeinflectRule := ⟨[0x3042], [0x3042], 511, WordType.TaTeStem, [Reason.Tai]⟩

def c3Groups : List RuleGroup := [⟨1, [c3Rule]⟩]

/-- A rule `る→るる` with empty reasons landing in `MasuStem` (allowed by the
spec's stated table constraints); its closure alternates rule application and
stem forwarding on ever-longer words. -/
def c4Rule : DeinflectRule :=
  ⟨[0x308B], [0x308B, 0x308B],
    WordType.IchidanVerb ||| WordType.KuruVerb ||| WordType.MasuStem,
    WordType.MasuStem, []⟩

def c4Groups : List RuleGroup := [⟨1, [c4Rule]⟩]

/-- An Ichidan PotentialOrPassive rule られる→る. -/
def c8RulePoP : DeinflectRule :=
  ⟨[0x3089, 0x308C, 0x308B], [0x308B], WordType.IchidanVerb, WordType.IchidanVerb,
    [Reason.PotentialOrPassive]⟩

/-- An Ichidan Causative rule させる→る. -/
def c8RuleCaus : DeinflectRule :=
  ⟨[0x3055, 0x305B, 0x308B], [0x308B], WordType.IchidanVerb, WordType.IchidanVerb,
    [Reason.Causative]⟩

def c8Groups : List RuleGroup := [⟨3, [c8RulePoP, c8RuleCaus]⟩]

/-- させられさせられる. -/
def c8Word : Str := [0x3055, 0x305B, 0x3089, 0x308C, 0x3055, 0x305B, 0x3089, 0x308C, 0x308B]

/-- A concrete stand-in for `unicodedata.normalize('NFC', ·)`, correct on the
two inputs it is applied to below: U+20BB7 is NFC-stable, and か (U+304B)
followed by the combining voiced sound mark (U+3099) composes to が
(U+304C). -/
def nfcDemo : Str → Str
  | [0x304B, 0x3099] => [0x304C]
  | s => s

/-- An entry whose only POS tag is the expression tag `exp`. -/
def expEntry : WordEntry :=
  { entry_id := 100, kanji_readings := [], kana_readings := []
    senses := [{ pos_tags := [strCodes "exp"], glosses := [], misc := [] }] }

/-- Entry with id 1 and no readings (headword type 1, priority 0). -/
def c1EntryA : WordEntry :=
  { entry_id := 1, kanji_readings := [], kana_readings := [], senses := [] }

/-- Entry with id 2 and no readings (headword type 1, priority 0). -/
def c1EntryB : WordEntry :=
  { entry_id := 2, kanji_readings := [], kana_readings := [], senses := [] }

/-- A result with the longer match (2 code units) reached by one
deinflection step. -/
def c1Long : WordResult :=
  { entry := c1EntryA, match_len := 2, reason_chains := some [[Reason.Past]] }

/-- A result with the shorter match (1 code unit) and no deinflection. -/
def c1Short : WordResult :=
  { entry := c1EntryB, match_len := 1, reason_chains := none }

/-! ### Specification-side definitions used to state claims -/

/-- The last result of a list carrying a given `entry_id` (for claim C10:
the `sort_meta` dict keeps exactly this result's metadata). -/
def lastResultWithId : List WordResult → Nat → Option WordResult
  | [], _ => none
  | r :: rest, i =>
      match lastResultWithId rest i with
      | some r' => some r'
      | none => if r.entry.entry_id = i then some r else none

/-- Invariant for claim C9: the seed sits unmodified at position 0, and the
only index binding pointing at position 0 is the original word's. -/
def SeedInv (w : Str) (s : DState) : Prop :=
  s.result.get? 0 = some (seedCand w) ∧ ∀ p ∈ s.idx, p.2 = 0 → p.1 = w

/-- Weight of a candidate for the termination potential: exponential in the
word length, with a bonus for stem-capable (forwardable) types. -/
def candWeight (B : Nat) (c : CandidateWord) : Nat :=
  B ^ (c.word.length + (if hasBit c.type stemMask then 2 else 0))

/-- Termination potential of a closure state at position `i`: total weight of
the candidates not yet processed. -/
def potential (B : Nat) (s : DState) (i : Nat) : Nat :=
  ((s.result.drop i).map (candWeight B)).sum

/-- Total number of rules of a grouped table. -/
def totalRules (groups : List RuleGroup) : Nat := (groups.map (·.rules.length)).sum

/-- `n` repetitions of る. -/
def repRu (n : Nat) : Str := List.replicate n 0x308B

/-- State invariant of the diverging `c4Groups` closure at loop position
`2k`: the result holds `2k+1` candidates, position `2k` is the stem-typed
candidate るⁿ⁺¹ with no chains, and no longer る-run is indexed yet. -/
def C4Inv (k : Nat) (s : DState) : Prop :=
  s.result.length = 2 * k + 1 ∧
  s.result.get? (2 * k) = some ⟨repRu (k + 1), WordType.MasuStem, []⟩ ∧
  ∀ m, k + 2 ≤ m → idxFind s.idx (repRu m) = none

/-!
## Theorems
-/

/-- C2: the two `deinflect` variants disagree.  At the failing input あ (with
an empty rule table) the first variant forwards the Ichidan stem with る
(U+308B) while the optimized variant appends the mojibake code points U+00E3
U+201A U+2039 (る's UTF-8 bytes mis-decoded), so the candidate lists differ. -/
theorem c2_optimized_variant_appends_mojibake :
    deinflect [] 4 [0x3042] =
      some [⟨[0x3042], 0xF8FF, []⟩, ⟨[0x3042, 0x308B], 9, [[Reason.MasuStem]]⟩] ∧
    deinflectOpt [] 4 [0x3042] =
      some [⟨[0x3042], 0xF8FF, []⟩,
        ⟨[0x3042, 0x00E3, 0x201A, 0x2039], 9, [[Reason.MasuStem]]⟩] ∧
    deinflect [] 4 [0x3042] ≠ deinflectOpt [] 4 [0x3042] :=
  ⟨by decide, by decide, by decide⟩

attribute [local semireducible] List.mergeSort List.merge

/-- C1 counterexample: `sort_word_results` ignores `match_len`.  On two
results with match lengths 2 and 1, where the longer match took one
deinflection step, the sorter places the shorter match first. -/
theorem c1_counterexample :
    c1Long.match_len = 2 ∧ c1Short.match_len = 1 ∧
    sort_word_results [c1Long, c1Short] = [c1Short, c1Long] :=
  ⟨rfl, rfl, by decide⟩

/-- C3 counterexample: with a well-formed rule table (a rule あ→あ landing in
`TaTeStem`), `deinflect あ` returns two distinct candidates with the same
`(word, type)` pair — the unconditional stem-forwarding append duplicates
(ある, IchidanVerb|KuruVerb). -/
theorem c3_counterexample :
    GroupsWF c3Groups ∧
    (deinflect c3Groups 8 [0x3042]).elim false dupWordType = true :=
  ⟨by decide, by decide⟩

/-- C8 counterexample: with two well-formed Ichidan rules られる→る
(PotentialOrPassive) and させる→る (Causative), deinflecting
させられさせられる produces the candidate る whose single chain repeats
`CausativePassive` — the Causative-over-PotentialOrPassive rewrite fires on a
chain that already contains `CausativePassive`. -/
theorem c8_counterexample :
    GroupsWF c8Groups ∧
    (deinflect c8Groups 40 c8Word).elim false (fun L => L.any hasRepeatReason) = true :=
  ⟨by decide, by decide⟩

/-- C5 counterexample: `normalize_input` (default options) on the single
non-BMP code point U+20BB7 returns an offset map of length 1, not
`len(normalized)+1 = 2`; and on か + U+3099 (NFC-composing to が) the final
sentinel is 1, not the UTF-16 length 2 of the width-folded pre-NFC string. -/
theorem c5_counterexample :
    (normalize_input nfcDemo true true [0x20BB7]).1 = [0x20BB7] ∧
    (normalize_input nfcDemo true true [0x20BB7]).2 = [0] ∧
    (normalize_input nfcDemo true true [0x304B, 0x3099]).2.getLast? = some 1 ∧
    utf16Len (half_to_full_width_num [0x304B, 0x3099]) = 2 :=
  ⟨by decide, by decide, by decide, by decide⟩

/-- C6 counterexample: an entry whose only POS tag is `exp` does not match
the `IchidanVerb` word type — `entry_matches_type` has no
expression-tag branch. -/
theorem c6_counterexample :
    entry_matches_type expEntry WordType.IchidanVerb = false := by decide

/-- Any-tag scan over tags that are all `exp` fails every per-branch test. -/
theorem anyAllExp (tags : List Str) (h : ∀ t ∈ tags, t = strCodes "exp")
    (p : Str → Bool) (hp : p (strCodes "exp") = false) : tags.any p = false := by
  rw [List.any_eq_false]
  intro t ht
  rw [h t ht, hp]
  exact Bool.false_ne_true

/-- C6 amended: an entry whose senses carry only the expression POS tag
`exp` matches no word-type mask at all: `entry_matches_type` returns false
for every mask (the code has no expression handling, so expression-only
entries are filtered out of deinflected lookups rather than accepted). -/
theorem c6_exp_only_entries_match_no_type (entry : WordEntry) (word_type : Nat)
    (h : ∀ t ∈ allPosTags entry, t = strCodes "exp") :
    entry_matches_type entry word_type = false := by
  simp only [entry_matches_type]
  rw [anyAllExp _ h posIchidan (by decide), anyAllExp _ h posGodan (by decide),
    anyAllExp _ h posIAdj (by decide), anyAllExp _ h posKuru (by decide),
    anyAllExp _ h posSuru (by decide), anyAllExp _ h posSpecialSuru (by decide),
    anyAllExp _ h posNounVS (by decide)]
  simp

/-- Witness for the amended C6 at the concrete expression-only entry. -/
theorem c6_witness :
    (∀ t ∈ allPosTags expEntry, t = strCodes "exp") ∧
    entry_matches_type expEntry (WordType.All ||| WordType.MasuStem) = false :=
  ⟨by decide, c6_exp_only_entries_match_no_type expEntry _ (by decide)⟩

/-- The `sort_meta` dict built by folding, looked up at `i`, holds the
metadata of the last result with that `entry_id` (later results overwrite
earlier ones). -/
theorem metaFind_foldl (results : List WordResult) (m : List (Nat × SortMeta)) (i : Nat) :
    metaFind (results.foldl (fun acc r => (r.entry.entry_id, sortMetaFor r) :: acc) m) i =
      (match lastResultWithId results i with
       | some r => some (sortMetaFor r)
       | none => metaFind m i) := by
  induction results generalizing m with
  | nil => rfl
  | cons r rest ih =>
      simp only [List.foldl_cons, lastResultWithId, ih]
      cases lastResultWithId rest i with
      | some r' => rfl
      | none =>
          simp only [metaFind]
          by_cases h : r.entry.entry_id = i
          · simp [h]
          · simp [h]

/-- A member's `entry_id` always has a last occurrence. -/
theorem lastResultWithId_isSome (results : List WordResult) (r : WordResult)
    (hr : r ∈ results) : (lastResultWithId results r.entry.entry_id).isSome = true := by
  induction results with
  | nil => cases hr
  | cons a rest ih =>
      simp only [lastResultWithId]
      cases hmem : lastResultWithId rest r.entry.entry_id with
      | some r' => rfl
      | none =>
          rcases List.mem_cons.mp hr with h | h
          · subst h; simp
          · have := ih h
            rw [hmem] at this
            cases this

/-- C10: the sort key used by `sort_word_results` for a result is computed
from the metadata of the *last* result in the list with the same `entry_id`
(the `sort_meta` dict is keyed by `entry_id` and overwritten), so an earlier
result's own deinflection-step count never enters the comparison. -/
theorem c10_sort_meta_overwritten_by_entry_id (results : List WordResult)
    (r : WordResult) (hr : r ∈ results) :
    ∃ rl, lastResultWithId results r.entry.entry_id = some rl ∧
      sortKey (buildSortMeta results) r =
        ((sortMetaFor rl).reasons, (sortMetaFor rl).type, -(sortMetaFor rl).priority) := by
  have hfold := metaFind_foldl results [] r.entry.entry_id
  have hsome := lastResultWithId_isSome results r hr
  cases hlast : lastResultWithId results r.entry.entry_id with
  | none => rw [hlast] at hsome; cases hsome
  | some rl =>
      refine ⟨rl, rfl, ?_⟩
      rw [hlast] at hfold
      unfold sortKey
      rw [show buildSortMeta results =
          results.foldl (fun acc r => (r.entry.entry_id, sortMetaFor r) :: acc) [] from rfl]
      rw [hfold]

/-- Witness for C10: a two-element list sharing `entry_id` 1, where the
earlier result has a 1-step chain and the later none; the key for both is the
later result's (0 steps). -/
theorem c10_witness :
    (⟨c1EntryA, 2, some [[Reason.Past]]⟩ : WordResult) ∈
        [(⟨c1EntryA, 2, some [[Reason.Past]]⟩ : WordResult), ⟨c1EntryA, 1, none⟩] ∧
    ∃ rl, lastResultWithId
          [(⟨c1EntryA, 2, some [[Reason.Past]]⟩ : WordResult), ⟨c1EntryA, 1, none⟩]
          (⟨c1EntryA, 2, some [[Reason.Past]]⟩ : WordResult).entry.entry_id = some rl ∧
      sortKey (buildSortMeta
          [(⟨c1EntryA, 2, some [[Reason.Past]]⟩ : WordResult), ⟨c1EntryA, 1, none⟩])
          ⟨c1EntryA, 2, some [[Reason.Past]]⟩ =
        ((sortMetaFor rl).reasons, (sortMetaFor rl).type, -(sortMetaFor rl).priority) :=
  ⟨by decide, c10_sort_meta_overwritten_by_entry_id _ _ (by decide)⟩

/-- Transitivity of the lexicographic key comparison. -/
theorem tupLE_trans (a b c : Nat × Nat × ℤ) (h1 : tupLE a b = true)
    (h2 : tupLE b c = true) : tupLE a c = true := by
  simp only [tupLE, decide_eq_true_eq] at h1 h2 ⊢
  omega

/-- Totality of the lexicographic key comparison. -/
theorem tupLE_total (a b : Nat × Nat × ℤ) : (tupLE a b || tupLE b a) = true := by
  simp only [tupLE, Bool.or_eq_true, decide_eq_true_eq]
  omega

/-- C1 amended: `sort_word_results` is a permutation of its input sorted
ascending by the key `(deinflection steps, headword type, −priority)`;
`match_len` is not part of the key, so nothing places longer matches first. -/
theorem c1_sorted_by_steps_type_priority (results : List WordResult) :
    List.Pairwise (fun a b =>
        tupLE (sortKey (buildSortMeta results) a)
          (sortKey (buildSortMeta results) b) = true)
      (sort_word_results results) ∧
    (sort_word_results results).Perm results := by
  constructor
  · exact @List.sorted_mergeSort WordResult
      (fun a b => tupLE (sortKey (buildSortMeta results) a) (sortKey (buildSortMeta results) b))
      (fun a b c h1 h2 => tupLE_trans _ _ _ h1 h2)
      (fun a b => tupLE_total _ _) results
  · exact List.mergeSort_perm results _

/-- `modifyAt` preserves the length. -/
theorem modifyAt_length (l : List CandidateWord) (j : Nat)
    (f : CandidateWord → CandidateWord) : (modifyAt l j f).length = l.length := by
  unfold modifyAt
  cases l.get? j <;> simp

/-- An index with a value is in range. -/
theorem get?_some_lt {α : Type} (l : List α) (j : Nat) (c : α) (h : l.get? j = some c) :
    j < l.length := by
  rw [List.get?_eq_getElem?] at h
  exact (List.getElem?_eq_some.mp h).1

/-- `modifyAt` applies `f` at position `j`. -/
theorem modifyAt_get_self (l : List CandidateWord) (j : Nat)
    (f : CandidateWord → CandidateWord) (c : CandidateWord) (h : l.get? j = some c) :
    (modifyAt l j f).get? j = some (f c) := by
  unfold modifyAt
  rw [h, List.get?_eq_getElem?]
  exact List.getElem?_set_self (get?_some_lt l j c h)

/-- `modifyAt` leaves other positions unchanged. -/
theorem modifyAt_get_ne (l : List CandidateWord) (i j : Nat) (hne : i ≠ j)
    (f : CandidateWord → CandidateWord) : (modifyAt l j f).get? i = l.get? i := by
  unfold modifyAt
  cases l.get? j with
  | none => rfl
  | some c =>
      rw [List.get?_eq_getElem?, List.get?_eq_getElem?]
      exact List.getElem?_set_ne (by omega)

/-- C3 amended: the rule-application path does de-duplicate against the
candidate currently indexed for `new_word`: when that candidate has exactly
the rule's `toType` (and the rule fires: type bit set, ending matches,
non-empty `new_word`, no repeated reasons), no new candidate is appended and
the rule's reasons are prepended as a new chain on the existing candidate.
(The stem-forwarding path, by contrast, appends unconditionally, which is
what the counterexample exploits.) -/
theorem c3_rule_merge_appends_no_candidate
    (s : DState) (i : Nat) (wt : Str) (ty : Nat) (ending hira : Str)
    (rule : DeinflectRule) (j : Nat) (existing : CandidateWord)
    (hbit : hasBit ty rule.fromType = true)
    (hend : ending = rule.fromStr ∨ hira = rule.fromStr)
    (hnw : strDropRight rule.fromStr.length wt ++ rule.toStr ≠ [])
    (hdup : (((s.result.get? i).map CandidateWord.reason_chains).getD []).flatten.any
        (fun r => rule.reasons.contains r) = false)
    (hidx : idxFind s.idx (strDropRight rule.fromStr.length wt ++ rule.toStr) = some j)
    (hget : s.result.get? j = some existing)
    (htype : existing.type = rule.toType) :
    (applyRule s i wt ty ending hira rule).result.length = s.result.length ∧
    (applyRule s i wt ty ending hira rule).idx = s.idx ∧
    (applyRule s i wt ty ending hira rule).result.get? j =
      some { existing with reason_chains :=
        if rule.reasons = [] then existing.reason_chains
        else rule.reasons :: existing.reason_chains } := by
  unfold applyRule
  rw [if_neg (by simp [hbit]), if_neg (by tauto), if_neg hnw]
  simp only [hdup, hidx, hget, htype, Bool.false_eq_true, if_false, if_pos rfl]
  by_cases hr : rule.reasons = []
  · refine ⟨?_, ?_, ?_⟩ <;>
      simp only [hr, ne_eq, not_true_eq_false, if_false, if_true, ite_true, ite_false]
    rw [hget, ← htype]
  · refine ⟨?_, ?_, ?_⟩ <;>
      simp only [ne_eq, hr, not_false_eq_true, if_true, if_false, ite_true, ite_false]
    · exact modifyAt_length _ _ _
    · rw [modifyAt_get_self s.result j _ existing hget, ← htype]

/-- Witness for the amended C3: a two-candidate state where the rule い→あ
merges into the existing candidate あ of equal type. -/
theorem c3_merge_witness :
    (applyRule ⟨[⟨[0x3042], 2, [[Reason.Te]]⟩, ⟨[0x3044], 1, []⟩],
          [([0x3044], 1), ([0x3042], 0)]⟩
        1 [0x3044] 1 [0x3044] [0x3044] ⟨[0x3044], [0x3042], 1, 2, [Reason.Past]⟩).result.length
        = 2 ∧
    (applyRule ⟨[⟨[0x3042], 2, [[Reason.Te]]⟩, ⟨[0x3044], 1, []⟩],
          [([0x3044], 1), ([0x3042], 0)]⟩
        1 [0x3044] 1 [0x3044] [0x3044] ⟨[0x3044], [0x3042], 1, 2, [Reason.Past]⟩).result.get? 0
        = some ⟨[0x3042], 2, [[Reason.Past], [Reason.Te]]⟩ := by
  have h := c3_rule_merge_appends_no_candidate
    ⟨[⟨[0x3042], 2, [[Reason.Te]]⟩, ⟨[0x3044], 1, []⟩], [([0x3044], 1), ([0x3042], 0)]⟩
    1 [0x3044] 1 [0x3044] [0x3044] ⟨[0x3044], [0x3042], 1, 2, [Reason.Past]⟩ 0
    ⟨[0x3042], 2, [[Reason.Te]]⟩
    (by decide) (by decide) (by decide) (by decide) (by decide) (by decide) (by decide)
  exact ⟨h.1, by rw [h.2.2]; decide⟩

/-- C8 amended: away from the Causative-over-PotentialOrPassive rewrite, the
chain construction for a newly created candidate preserves per-chain
distinctness: when the rule's reasons are themselves distinct and pass the
duplicate-reason check (disjoint from every reason already present), every
chain of the new candidate is duplicate-free.  The rewrite path, by
contrast, overwrites the chain head with `CausativePassive` without any
membership check, which is what the counterexample exploits. -/
theorem c8_newChains_nodup_without_rewrite
    (rule : DeinflectRule) (chains : List (List Reason))
    (hr : rule.reasons.Nodup)
    (hch : ∀ ch ∈ chains, ch.Nodup)
    (hdisj : ∀ r ∈ rule.reasons, r ∉ chains.flatten)
    (hnorw : ¬ (rule.reasons.head? = some Reason.Causative ∧
        (chains.headD []).head? = some Reason.PotentialOrPassive)) :
    ∀ ch ∈ newChains rule chains, ch.Nodup := by
  intro ch hmem
  by_cases hre : rule.reasons = []
  · unfold newChains at hmem
    rw [if_neg (by simp [hre])] at hmem
    exact hch ch hmem
  · cases chains with
    | nil =>
        have heq : newChains rule [] = [rule.reasons] := by
          unfold newChains
          rw [if_pos (by simp [hre])]
        rw [heq] at hmem
        simp only [List.mem_singleton] at hmem
        subst hmem
        exact hr
    | cons first rest =>
        have heq : newChains rule (first :: rest) =
            if rule.reasons.head? = some Reason.Causative ∧
                first.head? = some Reason.PotentialOrPassive then
              (Reason.CausativePassive :: first.tail) :: rest
            else if rule.reasons.head? = some Reason.MasuStem ∧ first ≠ [] then
              first :: rest
            else (rule.reasons ++ first) :: rest := by
          unfold newChains
          rw [if_pos (by simp [hre])]
        rw [heq] at hmem
        rw [if_neg (by simpa using hnorw)] at hmem
        by_cases hms : rule.reasons.head? = some Reason.MasuStem ∧ first ≠ []
        · rw [if_pos hms] at hmem
          exact hch ch hmem
        · rw [if_neg hms] at hmem
          rcases List.mem_cons.mp hmem with hh | hh
          · subst hh
            refine List.Nodup.append hr (hch first (List.mem_cons_self _ _)) ?_
            intro a ha
            have := hdisj a ha
            intro hafirst
            exact this (List.mem_flatten.mpr ⟨first, List.mem_cons_self _ _, hafirst⟩)
          · exact hch ch (List.mem_cons_of_mem _ hh)

/-- Witness for the amended C8 at a concrete rule and chain list. -/
theorem c8_nodup_witness :
    (⟨[0x3042], [0x3044], 1, 1, [Reason.Past]⟩ : DeinflectRule).reasons.Nodup ∧
    (∀ ch ∈ [[Reason.Te]], ch.Nodup) ∧
    (∀ r ∈ (⟨[0x3042], [0x3044], 1, 1, [Reason.Past]⟩ : DeinflectRule).reasons,
      r ∉ ([[Reason.Te]] : List (List Reason)).flatten) ∧
    (∀ ch ∈ newChains ⟨[0x3042], [0x3044], 1, 1, [Reason.Past]⟩ [[Reason.Te]], ch.Nodup) :=
  ⟨by decide, by decide, by decide,
    c8_newChains_nodup_without_rewrite _ _ (by decide) (by decide) (by decide) (by decide)⟩

/-- A successful `idxFind` exhibits a member of the map. -/
theorem idxFind_mem (m : List (Str × Nat)) (k : Str) (v : Nat)
    (h : idxFind m k = some v) : (k, v) ∈ m := by
  induction m with
  | nil => cases h
  | cons p rest ih =>
      obtain ⟨k2, v2⟩ := p
      unfold idxFind at h
      by_cases hk : k2 = k
      · rw [if_pos hk] at h
        cases h
        rw [hk]
        exact List.mem_cons_self _ _
      · rw [if_neg hk] at h
        exact List.mem_cons_of_mem _ (ih h)

/-- Stem forwarding preserves the seed invariant: it only appends (and the
new index binding points past position 0). -/
theorem seedInv_stemForward (w suffix : Str) (s : DState) (c : CandidateWord)
    (h : SeedInv w s) : SeedInv w (stemForwardWith suffix s c) := by
  obtain ⟨h0, hidx⟩ := h
  have hlen : 0 < s.result.length := get?_some_lt _ _ _ h0
  unfold stemForwardWith
  by_cases h1 : hasBit c.type stemMask = true
  · rw [if_pos h1]
    by_cases h2 : inapplicableForm c = true
    · rw [if_pos h2]; exact ⟨h0, hidx⟩
    · rw [if_neg h2]
      constructor
      · simp only []
        rw [List.get?_append hlen]
        exact h0
      · intro p hp hp2
        simp only [] at hp
        by_cases h3 : (idxFind s.idx (c.word ++ suffix)).isNone = true
        · rw [if_pos h3] at hp
          rcases List.mem_cons.mp hp with he | he
          · exfalso
            rw [he] at hp2
            simp only [List.length_append, List.length_singleton] at hp2
            omega
          · exact hidx p he hp2
        · rw [if_neg h3] at hp
          exact hidx p hp hp2
  · rw [if_neg h1]; exact ⟨h0, hidx⟩

/-- A single rule application preserves the seed invariant, provided the
rule's `toType` stays inside the defined category bits (so it can never
equal the seed's type `0xF8FF`, and the merge path can never target the
seed). -/
theorem seedInv_applyRule (w : Str) (s : DState) (i : Nat) (wt : Str) (ty : Nat)
    (ending hira : Str) (rule : DeinflectRule) (hto : rule.toType < 0x800)
    (h : SeedInv w s) : SeedInv w (applyRule s i wt ty ending hira rule) := by
  obtain ⟨h0, hidx⟩ := h
  have hlen : 0 < s.result.length := get?_some_lt _ _ _ h0
  have hcreate : SeedInv w
      (DState.mk
        (s.result ++ [CandidateWord.mk (strDropRight rule.fromStr.length wt ++ rule.toStr)
          rule.toType
          (newChains rule (((s.result.get? i).map CandidateWord.reason_chains).getD []))])
        ((strDropRight rule.fromStr.length wt ++ rule.toStr, s.result.length) :: s.idx)) := by
    constructor
    · rw [List.get?_append hlen]
      exact h0
    · intro p hp hp2
      rcases List.mem_cons.mp hp with he | he
      · exfalso
        rw [he] at hp2
        simp only at hp2
        omega
      · exact hidx p he hp2
  unfold applyRule
  by_cases h1 : ¬ hasBit ty rule.fromType = true
  · rw [if_pos h1]; exact ⟨h0, hidx⟩
  rw [if_neg h1]
  by_cases h2 : ending ≠ rule.fromStr ∧ hira ≠ rule.fromStr
  · rw [if_pos h2]; exact ⟨h0, hidx⟩
  rw [if_neg h2]
  simp only []
  by_cases h3 : strDropRight rule.fromStr.length wt ++ rule.toStr = []
  · rw [if_pos h3]; exact ⟨h0, hidx⟩
  rw [if_neg h3]
  by_cases h4 : ((((s.result.get? i).map CandidateWord.reason_chains).getD []).flatten.any
      (fun r => rule.reasons.contains r)) = true
  · rw [if_pos h4]; exact ⟨h0, hidx⟩
  rw [if_neg h4]
  cases hfind : idxFind s.idx (strDropRight rule.fromStr.length wt ++ rule.toStr) with
  | none => simp only []; exact hcreate
  | some j =>
      simp only []
      cases hget : s.result.get? j with
      | none => exact hcreate
      | some existing =>
          simp only []
          by_cases h5 : existing.type = rule.toType
          · rw [if_pos h5]
            have hj0 : j ≠ 0 := by
              intro hj
              subst hj
              rw [hget] at h0
              cases h0
              revert h5
              simp only [seedCand]
              rw [show seedType = 63743 from by decide]
              intro h5
              omega
            by_cases h6 : rule.reasons ≠ []
            · rw [if_pos h6]
              refine ⟨?_, hidx⟩
              rw [modifyAt_get_ne _ 0 j (fun hh => hj0 hh.symm) _]
              exact h0
            · rw [if_neg h6]; exact ⟨h0, hidx⟩
          · rw [if_neg h5]; exact hcreate

/-- Folding a state-invariant-preserving step preserves the invariant. -/
theorem foldl_preserves {α : Type} (P : DState → Prop) (f : DState → α → DState)
    (l : List α) (hf : ∀ s x, x ∈ l → P s → P (f s x)) :
    ∀ s, P s → P (l.foldl f s) := by
  induction l with
  | nil => intro s hs; exact hs
  | cons x xs ih =>
      intro s hs
      exact ih (fun s' y hy hs' => hf s' y (List.mem_cons_of_mem _ hy) hs') _
        (hf s x (List.mem_cons_self _ _) hs)

/-- Processing one candidate preserves the seed invariant (well-formed
table). -/
theorem seedInv_processCandidate (w : Str) (groups : List RuleGroup)
    (hwf : GroupsWF groups) (s : DState) (i : Nat) (h : SeedInv w s) :
    SeedInv w (processCandidate groups s i) := by
  unfold processCandidate
  cases s.result.get? i with
  | none => exact h
  | some c =>
      simp only []
      by_cases hms : masuShort c = true
      · rw [if_pos hms]; exact h
      · rw [if_neg hms]
        refine foldl_preserves _ _ groups (fun s' g hg hs' => ?_) _
          (seedInv_stemForward w _ s c h)
        unfold applyGroup
        by_cases hgl : g.fromLen > c.word.length
        · rw [if_pos hgl]; exact hs'
        · rw [if_neg hgl]
          simp only []
          refine foldl_preserves _ _ g.rules (fun s'' rule hrule hs'' => ?_) _ hs'
          exact seedInv_applyRule w s'' i c.word c.type _ _ rule
            (hwf g hg rule hrule).2.2.2.2 hs''

/-- The closure loop preserves the seed invariant. -/
theorem seedInv_loop (w : Str) (groups : List RuleGroup) (hwf : GroupsWF groups) :
    ∀ (fuel : Nat) (s : DState) (i : Nat) (sf : DState),
      deinflectLoop groups fuel s i = some sf → SeedInv w s → SeedInv w sf := by
  intro fuel
  induction fuel with
  | zero =>
      intro s i sf hloop hs
      unfold deinflectLoop at hloop
      by_cases hi : i < s.result.length
      · rw [if_pos hi] at hloop; cases hloop
      · rw [if_neg hi] at hloop; cases hloop; exact hs
  | succ n ih =>
      intro s i sf hloop hs
      unfold deinflectLoop at hloop
      by_cases hi : i < s.result.length
      · rw [if_pos hi] at hloop
        exact ih _ _ _ hloop (seedInv_processCandidate w groups hwf s i hs)
      · rw [if_neg hi] at hloop; cases hloop; exact hs

/-- C9: for any well-formed rule table, any fuel that completes the closure,
and any word, the returned candidate list contains a candidate whose word is
the input itself with empty reason chains: the identity seed is never
mutated (no rule's `toType` can equal the seed's type, so the merge path
never touches position 0) and survives the terminal-type filter. -/
theorem c9_identity_seed_survives (groups : List RuleGroup) (fuel : Nat) (w : Str)
    (L : List CandidateWord) (hwf : GroupsWF groups)
    (h : deinflect groups fuel w = some L) :
    ∃ c ∈ L, c.word = w ∧ c.reason_chains = [] := by
  unfold deinflect at h
  cases hloop : deinflectLoop groups fuel (initState w) 0 with
  | none => rw [hloop] at h; cases h
  | some sf =>
      rw [hloop] at h
      simp only [Option.map_some'] at h
      cases h
      have hinv : SeedInv w sf :=
        seedInv_loop w groups hwf fuel (initState w) 0 sf hloop
          ⟨rfl, by intro p hp hp2; simp only [initState, List.mem_singleton] at hp; rw [hp]⟩
      refine ⟨seedCand w, ?_, rfl, rfl⟩
      refine List.mem_filter.mpr ⟨List.get?_mem hinv.1, ?_⟩
      show hasBit (seedCand w).type WordType.All = true
      rw [show (seedCand w).type = seedType from rfl]
      decide

/-- Witness for C9 with the empty (vacuously well-formed) table. -/
theorem c9_witness :
    GroupsWF [] ∧
    ∃ c ∈ [seedCand [0x3042], (⟨[0x3042, 0x308B], 9, [[Reason.MasuStem]]⟩ : CandidateWord)],
      c.word = [0x3042] ∧ c.reason_chains = [] :=
  ⟨by decide, c9_identity_seed_survives [] 4 [0x3042] _ (by decide) (by decide)⟩

/-- `buildLengths` on a BMP-only string is the identity index map with a
final sentinel. -/
theorem buildLengths_bmp : ∀ (s : Str) (pos : Nat), (∀ c ∈ s, c ≤ 0xFFFF) →
    buildLengths s pos = List.range' pos s.length ++ [pos + s.length] := by
  intro s
  induction s with
  | nil => intro pos _; simp [buildLengths]
  | cons c rest ih =>
      intro pos hbmp
      unfold buildLengths
      rw [if_neg (by have := hbmp c (List.mem_cons_self _ _); omega)]
      rw [ih (pos + 1) (fun x hx => hbmp x (List.mem_cons_of_mem _ hx))]
      rw [List.length_cons, List.range'_succ,
        show pos + 1 + rest.length = pos + (rest.length + 1) from by omega]
      simp

/-- Length of the identity index map. -/
theorem ilLength (n : Nat) : (List.range' 0 n ++ [n]).length = n + 1 := by simp

/-- The identity index map reads back its index. -/
theorem ilGetD (n i : Nat) (h : i ≤ n) : (List.range' 0 n ++ [n]).getD i 0 = i := by
  rcases Nat.lt_or_ge i n with hlt | hge
  · rw [List.getD_eq_getElem?_getD, List.getElem?_append_left (by simpa using hlt),
      List.getElem?_range' _ _ hlt]
    simp
  · have hin : i = n := by omega
    subst hin
    rw [List.getD_eq_getElem?_getD, List.getElem?_append_right (by simp)]
    simp

theorem lastKeptEnd_all (s : Str) (h : s.all (fun c => c == ZWNJ) = true) :
    lastKeptEnd s = 0 := by
  unfold lastKeptEnd
  have heq : s.reverse.takeWhile (fun c => c == ZWNJ) = s.reverse :=
    List.takeWhile_eq_self_iff.mpr (by
      intro x hx
      rw [List.mem_reverse] at hx
      exact List.all_eq_true.mp h x hx)
  rw [heq, List.length_reverse]
  omega

theorem lastKeptEnd_cons_all (c : Nat) (rest : Str) (hc : ¬ c = ZWNJ)
    (h : rest.all (fun x => x == ZWNJ) = true) : lastKeptEnd (c :: rest) = 1 := by
  unfold lastKeptEnd
  rw [List.reverse_cons, List.takeWhile_append_of_pos (by
    intro a ha
    rw [List.mem_reverse] at ha
    exact List.all_eq_true.mp h a ha)]
  have h1 : List.takeWhile (fun x => x == ZWNJ) [c] = [] := by
    rw [List.takeWhile_cons]
    simp [hc]
  rw [h1]
  simp

theorem lastKeptEnd_cons_not_all (c : Nat) (rest : Str)
    (h : rest.all (fun x => x == ZWNJ) = false) :
    lastKeptEnd (c :: rest) = 1 + lastKeptEnd rest := by
  unfold lastKeptEnd
  rw [List.reverse_cons, List.takeWhile_append]
  have hne : ¬ ((rest.reverse.takeWhile (fun x => x == ZWNJ)).length = rest.reverse.length) := by
    intro hl
    have heq : rest.reverse.takeWhile (fun x => x == ZWNJ) = rest.reverse :=
      (List.takeWhile_prefix _).eq_of_length hl
    have hall := List.takeWhile_eq_self_iff.mp heq
    have htrue : rest.all (fun x => x == ZWNJ) = true :=
      List.all_eq_true.mpr (fun x hx => hall x (List.mem_reverse.mpr hx))
    rw [htrue] at h
    cases h
  rw [if_neg hne]
  have hle : (rest.reverse.takeWhile (fun x => x == ZWNJ)).length ≤ rest.length := by
    have := (List.takeWhile_prefix (l := rest.reverse) (fun x => x == ZWNJ)).length_le
    simpa using this
  simp only [List.length_cons]
  omega

theorem lastKeptEnd_pos (s : Str) (h : s.all (fun c => c == ZWNJ) = false) :
    1 ≤ lastKeptEnd s := by
  induction s with
  | nil => simp at h
  | cons c rest ih =>
      by_cases hall : rest.all (fun x => x == ZWNJ) = true
      · have hc : ¬ c = ZWNJ := by
          simp only [List.all_cons, hall, Bool.and_true] at h
          simpa using h
        rw [lastKeptEnd_cons_all c rest hc hall]
      · rw [lastKeptEnd_cons_not_all c rest (by simpa using hall)]
        omega

/-- Behaviour of the `do_strip_zwnj` loop on the identity index map: as many
kept offsets as kept code points, and the tracked `last` value is the
position just past the last kept code point (or the inherited value when
everything in the remaining suffix is stripped). -/
theorem stripGo_spec (n : Nat) : ∀ (s : Str) (i last : Nat), i + s.length = n →
    ((stripGo (List.range' 0 n ++ [n]) s i last).2.1.length =
        (stripGo (List.range' 0 n ++ [n]) s i last).1.length) ∧
    (if s.all (fun c => c == ZWNJ) = true then
        (stripGo (List.range' 0 n ++ [n]) s i last).1 = [] ∧
          (stripGo (List.range' 0 n ++ [n]) s i last).2.2 = last
      else (stripGo (List.range' 0 n ++ [n]) s i last).2.2 = i + lastKeptEnd s) := by
  intro s
  induction s with
  | nil =>
      intro i last _
      refine ⟨rfl, ?_⟩
      rw [if_pos (by rfl)]
      exact ⟨rfl, rfl⟩
  | cons c rest ih =>
      intro i last hi
      have hi2 : i + rest.length + 1 = n := by simpa [Nat.add_assoc] using hi
      have hil : i < (List.range' 0 n ++ [n]).length := by rw [ilLength]; omega
      have hil2 : i + 1 < (List.range' 0 n ++ [n]).length := by rw [ilLength]; omega
      unfold stripGo
      by_cases hc : c ≠ ZWNJ
      · rw [if_pos hc, if_pos hil, if_pos hil2]
        rw [ilGetD n i (by omega), ilGetD n (i + 1) (by omega)]
        have hres := ih (i + 1) (i + 1) (by omega)
        refine ⟨?_, ?_⟩
        · simp only [List.singleton_append, List.length_cons, hres.1]
        · rw [if_neg (by simp [show c ≠ ZWNJ from hc])]
          by_cases hall : rest.all (fun x => x == ZWNJ) = true
          · rw [if_pos hall] at hres
            simp only []
            rw [hres.2.2, lastKeptEnd_cons_all c rest (by simpa using hc) hall]
          · rw [if_neg hall] at hres
            simp only []
            rw [hres.2, lastKeptEnd_cons_not_all c rest (by simpa using hall)]
            omega
      · rw [if_neg hc]
        have hcz : c = ZWNJ := by by_contra hcc; exact hc hcc
        have hres := ih (i + 1) last (by omega)
        refine ⟨hres.1, ?_⟩
        by_cases hall : rest.all (fun x => x == ZWNJ) = true
        · rw [if_pos (by simp [hcz, hall])]
          rw [if_pos hall] at hres
          exact hres.2
        · rw [if_neg (by simp [hall])]
          rw [if_neg hall] at hres
          rw [hres.2, lastKeptEnd_cons_not_all c rest (by simpa using hall)]
          omega

/-- C5 amended: for default options and inputs whose NFC image lies in the
BMP, `len(offset_map) = len(normalized) + 1` holds, and the final sentinel
equals the offset just past the last kept (non-ZWNJ) code point of the NFC
string — measured in NFC code points of the NFC result, not in UTF-16 code
units of the pre-NFC string (the counterexamples show both parts of the
original claim fail beyond this). -/
theorem c5_bmp_offset_map (nfc : Str → Str) (text : Str)
    (hnil : nfc [] = [])
    (hbmp : ∀ c ∈ nfc (half_to_full_width_num text), c ≤ 0xFFFF) :
    (normalize_input nfc true true text).2.length =
      (normalize_input nfc true true text).1.length + 1 ∧
    (normalize_input nfc true true text).2.getLast? =
      some (lastKeptEnd (nfc (half_to_full_width_num text))) := by
  by_cases htext : text = []
  · subst htext
    rw [show half_to_full_width_num [] = [] from rfl, hnil]
    exact ⟨rfl, rfl⟩
  · have hmain : normalize_input nfc true true text =
        (let p := do_strip_zwnj (to_normalized nfc (half_to_full_width_num text)).1
            (to_normalized nfc (half_to_full_width_num text)).2;
          (p.1, if p.2 = [] then [0] else p.2)) := by
      unfold normalize_input
      rw [if_neg htext]
      rfl
    rw [hmain]
    by_cases hN : nfc (half_to_full_width_num text) = []
    · have ht : to_normalized nfc (half_to_full_width_num text) =
          (nfc (half_to_full_width_num text), [0]) := by
        unfold to_normalized
        rw [if_pos hN]
      rw [ht]
      simp only []
      rw [hN]
      exact ⟨rfl, rfl⟩
    · have ht : to_normalized nfc (half_to_full_width_num text) =
          (nfc (half_to_full_width_num text),
            List.range' 0 (nfc (half_to_full_width_num text)).length ++
              [(nfc (half_to_full_width_num text)).length]) := by
        unfold to_normalized
        rw [if_neg hN, buildLengths_bmp _ 0 hbmp]
        simp
      rw [ht]
      simp only []
      unfold do_strip_zwnj
      simp only []
      have hspec := stripGo_spec (nfc (half_to_full_width_num text)).length
        (nfc (half_to_full_width_num text)) 0 0 (by omega)
      by_cases hall : (nfc (half_to_full_width_num text)).all (fun x => x == ZWNJ) = true
      · rw [if_pos hall] at hspec
        have hlen := hspec.1
        have h1 := hspec.2.1
        have h2 := hspec.2.2
        rw [h2, if_neg (by simp : ¬ (0 : Nat) ≠ 0)]
        have hnl : (stripGo (List.range' 0 (nfc (half_to_full_width_num text)).length ++
            [(nfc (half_to_full_width_num text)).length])
            (nfc (half_to_full_width_num text)) 0 0).2.1 = [] := by
          rw [← List.length_eq_zero, hlen, h1]
          rfl
        rw [hnl, h1, if_pos rfl]
        refine ⟨rfl, ?_⟩
        rw [lastKeptEnd_all _ hall]
        rfl
      · rw [if_neg hall] at hspec
        have hlen := hspec.1
        have h2 := hspec.2
        have hpos := lastKeptEnd_pos _ (by simpa using hall)
        rw [h2, if_pos (by omega :
          (0 : Nat) + lastKeptEnd (nfc (half_to_full_width_num text)) ≠ 0)]
        rw [if_neg (by simp :
          ¬ ((stripGo (List.range' 0 (nfc (half_to_full_width_num text)).length ++
            [(nfc (half_to_full_width_num text)).length])
            (nfc (half_to_full_width_num text)) 0 0).2.1 ++
            [0 + lastKeptEnd (nfc (half_to_full_width_num text))] = []))]
        constructor
        · rw [List.length_append, hlen]
          rfl
        · rw [List.getLast?_concat]
          rw [show (0 : Nat) + lastKeptEnd (nfc (half_to_full_width_num text)) =
            lastKeptEnd (nfc (half_to_full_width_num text)) from by omega]

/-- Witness for the amended C5: a BMP-only input with an interior ZWNJ. -/
theorem c5_witness :
    nfcDemo [] = [] ∧
    (∀ c ∈ nfcDemo (half_to_full_width_num [0x3042, 0x200C, 0x3044]), c ≤ 0xFFFF) ∧
    (normalize_input nfcDemo true true [0x3042, 0x200C, 0x3044]).2.length =
      (normalize_input nfcDemo true true [0x3042, 0x200C, 0x3044]).1.length + 1 ∧
    (normalize_input nfcDemo true true [0x3042, 0x200C, 0x3044]).2.getLast? =
      some (lastKeptEnd (nfcDemo (half_to_full_width_num [0x3042, 0x200C, 0x3044]))) := by
  refine ⟨rfl, by decide, ?_⟩
  exact (c5_bmp_offset_map nfcDemo [0x3042, 0x200C, 0x3044] rfl (by decide))

/-- A winning variant returned by `tryVariants` carries a non-empty result
list (the loop only latches onto variants whose lookup produced results). -/
theorem tryVariants_success_nonempty (groups : List RuleGroup) (dfuel : Nat)
    (dict : Str → Nat → Str → List WordEntry) (hv : List Nat) (max_results cil : Nat)
    (current : Str) :
    ∀ (vars : List Str) (vw : Str × List WordResult),
      tryVariants groups dfuel dict hv max_results cil current vars = some (some vw) →
        vw.2 ≠ [] := by
  intro vars
  induction vars with
  | nil => intro vw h; cases h
  | cons v rest ih =>
      intro vw h
      unfold tryVariants at h
      split at h
      next => cases h
      next wr hwr =>
        split at h
        next hne =>
          cases h
          exact hne
        next hne => exact ih vw h

/-- Folding `max` with a larger seed: the seed can be split off. -/
theorem foldr_max_init (l : List Nat) (a b : Nat) :
    l.foldr max (max a b) = max b (l.foldr max a) := by
  induction l with
  | nil => exact Nat.max_comm a b
  | cons c t ih =>
      simp only [List.foldr_cons, ih]
      omega

/-- The ghost trace projects onto the real loop: `wsLoop` is `wsTrace`
without the success-length component. -/
theorem wsTrace_proj (groups : List RuleGroup) (dfuel : Nat)
    (dict : Str → Nat → Str → List WordEntry) (max_results : Nat)
    (input_lengths : List Nat) :
    ∀ (fuel : Nat) (current : Str) (hv : List Nat) (results : List WordResult)
      (longest : Nat) (inc : Bool) (succ : List Nat),
      wsLoop groups dfuel dict max_results input_lengths fuel current hv results longest inc =
        (wsTrace groups dfuel dict max_results input_lengths fuel current hv results longest
          inc succ).map (fun x => (x.1, x.2.1)) := by
  intro fuel
  induction fuel with
  | zero =>
      intro current hv results longest inc succ
      unfold wsLoop wsTrace
      by_cases hcur : current = []
      · rw [if_pos hcur, if_pos hcur]; rfl
      · rw [if_neg hcur, if_neg hcur]; rfl
  | succ n ih =>
      intro current hv results longest inc succ
      unfold wsLoop wsTrace
      by_cases hcur : current = []
      · rw [if_pos hcur, if_pos hcur]; rfl
      rw [if_neg hcur, if_neg hcur]
      by_cases hdig : is_only_digits current = true
      · rw [if_pos hdig, if_pos hdig]; rfl
      rw [if_neg hdig, if_neg hdig]
      simp only []
      cases tryVariants groups dfuel dict hv max_results
          (curOrigLen input_lengths current) current
          (variationsOf current inc) with
      | none => rfl
      | some o =>
          cases o with
          | none =>
              simp only []
              by_cases hb : results.length ≥ max_results * 5
              · rw [if_pos hb, if_pos hb]; rfl
              · rw [if_neg hb, if_neg hb]
                exact ih _ _ _ _ _ _
          | some vw =>
              simp only []
              by_cases hb : (results ++ vw.2).length ≥ max_results * 5
              · rw [if_pos hb, if_pos hb]; rfl
              · rw [if_neg hb, if_neg hb]
                exact ih _ _ _ _ _ _

/-- Accumulator invariant of the ghost trace: the final results extend the
accumulated ones by the concatenated success blocks, the final longest match
is the running maximum of the new success lengths over the accumulated
longest, and new results appear exactly when a lookup succeeded. -/
theorem wsTrace_inv (groups : List RuleGroup) (dfuel : Nat)
    (dict : Str → Nat → Str → List WordEntry) (max_results : Nat)
    (input_lengths : List Nat) :
    ∀ (fuel : Nat) (current : Str) (hv : List Nat) (results : List WordResult)
      (longest : Nat) (inc : Bool) (succ : List Nat) (r' : List WordResult)
      (l' : Nat) (s' : List Nat),
      wsTrace groups dfuel dict max_results input_lengths fuel current hv results longest
          inc succ = some (r', l', s') →
      ∃ nR nS, r' = results ++ nR ∧ s' = succ ++ nS ∧ l' = nS.foldr max longest ∧
        (nR = [] ↔ nS = []) := by
  intro fuel
  induction fuel with
  | zero =>
      intro current hv results longest inc succ r' l' s' h
      unfold wsTrace at h
      by_cases hcur : current = []
      · rw [if_pos hcur] at h
        cases h
        exact ⟨[], [], by simp, by simp, rfl, by simp⟩
      · rw [if_neg hcur] at h
        cases h
  | succ n ih =>
      intro current hv results longest inc succ r' l' s' h
      unfold wsTrace at h
      by_cases hcur : current = []
      · rw [if_pos hcur] at h
        cases h
        exact ⟨[], [], by simp, by simp, rfl, by simp⟩
      rw [if_neg hcur] at h
      by_cases hdig : is_only_digits current = true
      · rw [if_pos hdig] at h
        cases h
        exact ⟨[], [], by simp, by simp, rfl, by simp⟩
      rw [if_neg hdig] at h
      simp only [] at h
      cases htv : tryVariants groups dfuel dict hv max_results
          (curOrigLen input_lengths current) current
          (variationsOf current inc) with
      | none => rw [htv] at h; cases h
      | some o =>
          rw [htv] at h
          cases o with
          | none =>
              simp only [] at h
              by_cases hb : results.length ≥ max_results * 5
              · rw [if_pos hb] at h
                cases h
                exact ⟨[], [], by simp, by simp, rfl, by simp⟩
              · rw [if_neg hb] at h
                exact ih _ _ _ _ _ _ _ _ _ h
          | some vw =>
              have hne : vw.2 ≠ [] :=
                tryVariants_success_nonempty groups dfuel dict hv max_results
                  (curOrigLen input_lengths current) current (variationsOf current inc) vw htv
              simp only [] at h
              by_cases hb : (results ++ vw.2).length ≥ max_results * 5
              · rw [if_pos hb] at h
                cases h
                refine ⟨vw.2, [curOrigLen input_lengths current], rfl, rfl, ?_, ?_⟩
                · simp only [List.foldr_cons, List.foldr_nil]
                  omega
                · simp [hne]
              · rw [if_neg hb] at h
                obtain ⟨nR, nS, h1, h2, h3, h4⟩ := ih _ _ _ _ _ _ _ _ _ h
                refine ⟨vw.2 ++ nR, curOrigLen input_lengths current :: nS, ?_, ?_, ?_, ?_⟩
                · rw [h1, List.append_assoc]
                · rw [h2, List.append_assoc]
                  rfl
                · rw [h3, List.foldr_cons, foldr_max_init]
                · simp [hne]

/-- C7: `word_search` (run with enough fuel) returns `None` exactly when no
lookup during the backtracking loop produced a result; when it returns a
value, `data` is non-empty (for `max_results ≥ 1`), has at most
`max_results` elements, and `match_len` is the largest
`current_original_len` at which a lookup succeeded. -/
theorem c7_word_search_none_iff_no_lookup_hit
    (groups : List RuleGroup) (dfuel : Nat) (dict : Str → Nat → Str → List WordEntry)
    (input_text : Str) (max_results : Nat) (input_lengths : List Nat) (sfuel : Nat)
    (out : Option WordSearchResult)
    (hmax : 1 ≤ max_results)
    (h : word_search groups dfuel dict input_text max_results input_lengths sfuel =
      some out) :
    ∃ results longest succ,
      wsTrace groups dfuel dict max_results input_lengths sfuel input_text [] [] 0 true [] =
        some (results, longest, succ) ∧
      (out = none ↔ succ = []) ∧
      (∀ r, out = some r →
        r.data ≠ [] ∧ r.data.length ≤ max_results ∧ r.match_len = succ.foldr max 0) := by
  unfold word_search at h
  rw [wsTrace_proj groups dfuel dict max_results input_lengths sfuel input_text [] [] 0
    true []] at h
  cases htr : wsTrace groups dfuel dict max_results input_lengths sfuel input_text
      [] [] 0 true [] with
  | none => rw [htr] at h; cases h
  | some rls =>
      obtain ⟨results, longest, succ⟩ := rls
      rw [htr] at h
      simp only [Option.map_some'] at h
      cases h
      obtain ⟨nR, nS, h1, h2, h3, h4⟩ :=
        wsTrace_inv groups dfuel dict max_results input_lengths sfuel input_text
          [] [] 0 true [] results longest succ htr
      simp only [List.nil_append] at h1 h2
      rw [← h1] at h4
      rw [← h2] at h4 h3
      refine ⟨results, longest, succ, rfl, ?_, ?_⟩
      · by_cases hres : results = []
        · rw [if_pos hres]
          simp [h4.mp hres]
        · rw [if_neg hres]
          constructor
          · intro hcon; cases hcon
          · intro hs
            exact absurd (h4.mpr hs) hres
      · intro r hr
        by_cases hres : results = []
        · rw [if_pos hres] at hr; cases hr
        · rw [if_neg hres] at hr
          simp only [Option.some_inj] at hr
          subst hr
          have hlen : (sort_word_results results).length = results.length :=
            (List.mergeSort_perm results _).length_eq
          refine ⟨?_, ?_, h3⟩
          · intro hd
            have := congrArg List.length hd
            rw [List.length_take, hlen] at this
            simp only [List.length_nil] at this
            have hnr : 0 < results.length := List.length_pos.mpr hres
            omega
          · simp only []
            rw [List.length_take]
            omega

/-- Witness for C7: the empty dictionary on input あ finds nothing, and
`word_search` returns `None`. -/
theorem c7_witness :
    (1 : Nat) ≤ 7 ∧
    word_search [] 3 (fun _ _ _ => []) [0x3042] 7 [0, 1] 2 = some none ∧
    ∃ results longest succ,
      wsTrace [] 3 (fun _ _ _ => []) 7 [0, 1] 2 [0x3042] [] [] 0 true [] =
        some (results, longest, succ) ∧
      ((none : Option WordSearchResult) = none ↔ succ = []) ∧
      (∀ r, (none : Option WordSearchResult) = some r →
        r.data ≠ [] ∧ r.data.length ≤ 7 ∧ r.match_len = succ.foldr max 0) :=
  ⟨by omega, by decide,
    c7_word_search_none_iff_no_lookup_hit [] 3 (fun _ _ _ => []) [0x3042] 7 [0, 1] 2
      none (by omega) (by decide)⟩

theorem repRu_len (n : Nat) : (repRu n).length = n := by
  unfold repRu
  exact List.length_replicate n _

theorem repRu_succ (n : Nat) : repRu n ++ [0x308B] = repRu (n + 1) := by
  unfold repRu
  exact (List.replicate_succ' n _).symm

theorem repRu_ne_nil (n : Nat) : repRu (n + 1) ≠ [] := by
  unfold repRu
  simp

theorem strTakeRight_repRu (n : Nat) : strTakeRight 1 (repRu (n + 1)) = [0x308B] := by
  unfold strTakeRight
  rw [repRu_len, Nat.add_sub_cancel]
  unfold repRu
  rw [List.drop_replicate]
  simp

theorem c4_new_word (k : Nat) :
    strDropRight 1 (repRu (k + 1)) ++ [0x308B, 0x308B] = repRu (k + 2) := by
  unfold strDropRight
  rw [repRu_len, Nat.add_sub_cancel]
  unfold repRu
  rw [List.take_replicate]
  rw [show [0x308B, 0x308B] = List.replicate 2 0x308B from rfl, ← List.replicate_add]
  congr 1
  omega

theorem masuShort_stem (w : Str) : masuShort ⟨w, 128, []⟩ = false := by
  unfold masuShort
  simp

theorem masuShort_fwd (w : Str) : masuShort ⟨w, 9, [[Reason.MasuStem]]⟩ = true := by
  unfold masuShort
  simp
  decide

theorem idxFind_cons_ne (p : Str × Nat) (rest : List (Str × Nat)) (w : Str)
    (h : ¬ p.1 = w) : idxFind (p :: rest) w = idxFind rest w := by
  obtain ⟨a, b⟩ := p
  have h2 : ¬ a = w := h
  simp only [idxFind]
  rw [if_neg h2]

/-- The stem-forwarding step on a `MasuStem`-typed chainless candidate るⁿ⁺¹
appends るⁿ⁺² with type IchidanVerb|KuruVerb and chain `[[MasuStem]]`. -/
theorem c4_stemForward (s : DState) (k : Nat)
    (hlen : s.result.length = 2 * k + 1)
    (hfind : idxFind s.idx (repRu (k + 2)) = none) :
    stemForwardWith [0x308B] s ⟨repRu (k + 1), 128, []⟩ =
      ⟨s.result ++ [⟨repRu (k + 2), 9, [[Reason.MasuStem]]⟩],
        (repRu (k + 2), 2 * k + 1) :: s.idx⟩ := by
  unfold stemForwardWith
  rw [if_pos (show hasBit (128 : Nat) stemMask = true from by decide)]
  simp only [repRu_succ, hfind]
  rw [if_neg (show ¬ inapplicableForm ⟨repRu (k + 1), 128, []⟩ = true from by
    unfold inapplicableForm
    simp)]
  simp [hlen]
  exact ⟨by decide, by decide⟩

/-- The single rule of `c4Groups` applied to るⁿ⁺¹ (after the forward)
creates a fresh `MasuStem`-typed るⁿ⁺² (the indexed candidate has type 9). -/
theorem c4_applyRule (s : DState) (k : Nat)
    (hlen : s.result.length = 2 * k + 1)
    (hget : s.result.get? (2 * k) = some ⟨repRu (k + 1), 128, []⟩) :
    applyRule ⟨s.result ++ [⟨repRu (k + 2), 9, [[Reason.MasuStem]]⟩],
        (repRu (k + 2), 2 * k + 1) :: s.idx⟩
      (2 * k) (repRu (k + 1)) 128 [0x308B] [0x308B] c4Rule =
      ⟨(s.result ++ [⟨repRu (k + 2), 9, [[Reason.MasuStem]]⟩]) ++ [⟨repRu (k + 2), 128, []⟩],
        (repRu (k + 2), 2 * k + 2) :: (repRu (k + 2), 2 * k + 1) :: s.idx⟩ := by
  unfold applyRule
  rw [if_neg (show ¬ (¬ hasBit (128 : Nat) c4Rule.fromType = true) from by
    simp only [c4Rule]
    decide)]
  rw [if_neg (show ¬ (([0x308B] : Str) ≠ c4Rule.fromStr ∧ ([0x308B] : Str) ≠ c4Rule.fromStr)
    from by
      simp only [c4Rule]
      simp)]
  simp only []
  rw [show c4Rule.fromStr.length = 1 from rfl, show c4Rule.toStr = [0x308B, 0x308B] from rfl]
  rw [c4_new_word k]
  rw [if_neg (repRu_ne_nil (k + 1))]
  have hchains : ((((s.result ++
      [(⟨repRu (k + 2), 9, [[Reason.MasuStem]]⟩ : CandidateWord)]).get? (2 * k)).map
        CandidateWord.reason_chains).getD []) = ([] : List (List Reason)) := by
    rw [List.get?_append (by omega), hget]
    rfl
  rw [hchains]
  rw [if_neg (show ¬ ((([] : List (List Reason)).flatten.any
    (fun r => c4Rule.reasons.contains r)) = true) from by simp)]
  have hidx : idxFind ((repRu (k + 2), 2 * k + 1) :: s.idx) (repRu (k + 2)) =
      some (2 * k + 1) := by
    unfold idxFind
    rw [if_pos rfl]
  rw [hidx]
  simp only []
  have hget2 : (s.result ++ [(⟨repRu (k + 2), 9, [[Reason.MasuStem]]⟩ : CandidateWord)]).get?
      (2 * k + 1) = some ⟨repRu (k + 2), 9, [[Reason.MasuStem]]⟩ := by
    rw [← hlen]
    exact List.get?_concat_length _ _
  rw [hget2]
  simp only []
  rw [if_neg (show ¬ ((⟨repRu (k + 2), 9, [[Reason.MasuStem]]⟩ : CandidateWord).type
      = c4Rule.toType) from by
    simp only [c4Rule]
    decide)]
  simp [hlen]
  refine ⟨rfl, ?_⟩
  unfold newChains
  simp [c4Rule]

/-- Processing the `MasuStem` candidate るⁿ⁺¹ at an even position appends the
forwarded るⁿ⁺² and the rule-derived るⁿ⁺². -/
theorem c4_step (k : Nat) (s : DState) (hinv : C4Inv k s) :
    processCandidate c4Groups s (2 * k) =
      ⟨(s.result ++ [⟨repRu (k + 2), 9, [[Reason.MasuStem]]⟩]) ++ [⟨repRu (k + 2), 128, []⟩],
        (repRu (k + 2), 2 * k + 2) :: (repRu (k + 2), 2 * k + 1) :: s.idx⟩ := by
  obtain ⟨hlen, hget, hfind⟩ := hinv
  rw [show (WordType.MasuStem : Nat) = 128 from rfl] at hget
  unfold processCandidate
  rw [hget]
  simp only []
  rw [if_neg (by rw [masuShort_stem]; simp)]
  rw [c4_stemForward s k hlen (hfind (k + 2) (by omega))]
  rw [show c4Groups = [⟨1, [c4Rule]⟩] from rfl, List.foldl_cons, List.foldl_nil]
  unfold applyGroup
  simp only []
  rw [if_neg (by rw [repRu_len]; omega)]
  rw [strTakeRight_repRu k]
  rw [show kana_to_hiragana [0x308B] = [0x308B] from rfl]
  rw [List.foldl_cons, List.foldl_nil]
  exact c4_applyRule s k hlen hget

/-- Processing a forwarded Ichidan masu-stem candidate is skipped. -/
theorem c4_skip (s : DState) (w : Str) (i : Nat)
    (hget : s.result.get? i = some ⟨w, 9, [[Reason.MasuStem]]⟩) :
    processCandidate c4Groups s i = s := by
  unfold processCandidate
  rw [hget]
  simp only []
  rw [if_pos (masuShort_fwd w)]

/-- The two-candidate extension preserves (and advances) the divergence
invariant. -/
theorem c4_inv_next (k : Nat) (s : DState) (hinv : C4Inv k s) :
    C4Inv (k + 1)
      ⟨(s.result ++ [⟨repRu (k +  2), 9, [[Reason.MasuStem]]⟩]) ++ [⟨repRu (k + 2), 128, []⟩],
        (repRu (k + 2), 2 * k + 2) :: (repRu (k + 2), 2 * k + 1) :: s.idx⟩ := by
  obtain ⟨hlen, hget, hfind⟩ := hinv
  refine ⟨by simp only [List.length_append, List.length_cons, List.length_nil, hlen]; omega,
    ?_, ?_⟩
  · show ((s.result ++ [(⟨repRu (k + 2), 9, [[Reason.MasuStem]]⟩ : CandidateWord)]) ++
      [(⟨repRu (k + 2), 128, []⟩ : CandidateWord)]).get? (2 * (k + 1)) =
        some ⟨repRu (k + 1 + 1), 128, []⟩
    rw [show 2 * (k + 1) = (s.result ++
      [(⟨repRu (k + 2), 9, [[Reason.MasuStem]]⟩ : CandidateWord)]).length from by
        simp [hlen]; omega]
    rw [List.get?_concat_length]
  · intro m hm
    rw [idxFind_cons_ne _ _ _ (show ¬ repRu (k + 2) = repRu m from fun he => by
      have := congrArg List.length he
      rw [repRu_len, repRu_len] at this
      omega)]
    rw [idxFind_cons_ne _ _ _ (show ¬ repRu (k + 2) = repRu m from fun he => by
      have := congrArg List.length he
      rw [repRu_len, repRu_len] at this
      omega)]
    exact hfind m (by omega)

/-- From any state satisfying the invariant, the closure loop never reaches
the end of the (forever-growing) result list. -/
theorem c4_loop_diverges : ∀ (fuel k : Nat) (s : DState), C4Inv k s →
    deinflectLoop c4Groups fuel s (2 * k) = none := by
  intro fuel
  induction fuel using Nat.strong_induction_on with
  | _ fuel ih =>
      intro k s hinv
      rcases fuel with _ | fuel1
      · unfold deinflectLoop
        rw [if_pos (by rw [hinv.1]; omega)]
      rcases fuel1 with _ | f
      · unfold deinflectLoop
        rw [if_pos (by rw [hinv.1]; omega)]
        rw [c4_step k s hinv]
        unfold deinflectLoop
        rw [if_pos (by
          simp only [List.length_append, List.length_singleton, hinv.1]
          omega)]
      · unfold deinflectLoop
        rw [if_pos (by rw [hinv.1]; omega)]
        rw [c4_step k s hinv]
        unfold deinflectLoop
        rw [if_pos (by
          simp only [List.length_append, List.length_singleton, hinv.1]
          omega)]
        rw [c4_skip _ (repRu (k + 2)) (2 * k + 1) (by
          rw [List.get?_append (by
            simp only [List.length_append, List.length_singleton, hinv.1]
            omega)]
          rw [show 2 * k + 1 = s.result.length from by rw [hinv.1]]
          exact List.get?_concat_length _ _)]
        rw [show 2 * k + 1 + 1 = 2 * (k + 1) from by omega]
        exact ih f (by omega) (k + 1) _ (c4_inv_next k s hinv)

/-- C4 counterexample: with the spec-conforming rule る→るる (empty reasons,
`MasuStem` target), `deinflect る` never returns: no fuel completes the
closure loop, because processing each るⁿ appends both the forwarded and the
rule-derived るⁿ⁺¹ faster than the loop index advances. -/
theorem c4_counterexample :
    GroupsWF c4Groups ∧
    ¬ ∃ fuel L, deinflect c4Groups fuel [0x308B] = some L := by
  refine ⟨by decide, ?_⟩
  rintro ⟨fuel, L, h⟩
  unfold deinflect at h
  have hnone : deinflectLoop c4Groups fuel (initState [0x308B]) 0 = none := by
    match fuel with
    | 0 => decide
    | 1 => decide
    | f + 2 =>
        have h2 : deinflectLoop c4Groups (f + 2) (initState [0x308B]) 0 =
            deinflectLoop c4Groups f
              ⟨[seedCand [0x308B], ⟨[0x308B, 0x308B], 9, [[Reason.MasuStem]]⟩,
                  ⟨[0x308B, 0x308B], 128, []⟩],
                [([0x308B, 0x308B], 2), ([0x308B, 0x308B], 1), ([0x308B], 0)]⟩ 2 := rfl
        rw [h2]
        have hinv : C4Inv 1
            ⟨[seedCand [0x308B], ⟨[0x308B, 0x308B], 9, [[Reason.MasuStem]]⟩,
                ⟨[0x308B, 0x308B], 128, []⟩],
              [([0x308B, 0x308B], 2), ([0x308B, 0x308B], 1), ([0x308B], 0)]⟩ := by
          refine ⟨rfl, rfl, ?_⟩
          intro m hm
          rw [idxFind_cons_ne _ _ _ (show ¬ ([0x308B, 0x308B] : Str) = repRu m from
            fun he => by
              have := congrArg List.length he
              rw [repRu_len] at this
              simp at this
              omega)]
          rw [idxFind_cons_ne _ _ _ (show ¬ ([0x308B, 0x308B] : Str) = repRu m from
            fun he => by
              have := congrArg List.length he
              rw [repRu_len] at this
              simp at this
              omega)]
          rw [idxFind_cons_ne _ _ _ (show ¬ ([0x308B] : Str) = repRu m from
            fun he => by
              have := congrArg List.length he
              rw [repRu_len] at this
              simp at this
              omega)]
          rfl
        exact c4_loop_diverges f 1 _ hinv
  rw [hnone] at h
  cases h

/-! ### Termination of the closure for shrinking, stem-free rule tables
(the amended form of claim C4).  The potential of a state at loop position
`i` is the sum of `B ^ (length + stem-bonus)` over the unprocessed
candidates, with `B = totalRules + 2`; every processed candidate spawns
children of strictly smaller total weight. -/

theorem potential_append (B : Nat) (s : DState) (tail : List CandidateWord)
    (idx' : List (Str × Nat)) (m : Nat) (hm : m ≤ s.result.length) :
    potential B ⟨s.result ++ tail, idx'⟩ m =
      potential B s m + (tail.map (candWeight B)).sum := by
  unfold potential
  simp only []
  rw [List.drop_append_of_le_length hm, List.map_append, List.sum_append]

theorem potential_succ (B : Nat) (s : DState) (i : Nat) (c : CandidateWord)
    (h : s.result.get? i = some c) :
    potential B s i = candWeight B c + potential B s (i + 1) := by
  have hi : i < s.result.length := get?_some_lt _ _ _ h
  unfold potential
  rw [List.drop_eq_getElem_cons hi, List.map_cons, List.sum_cons]
  have h2 : s.result[i]? = some c := by
    rw [← List.get?_eq_getElem?]
    exact h
  rw [List.getElem?_eq_getElem hi] at h2
  rw [Option.some_inj.mp h2]

theorem map_modifyAt (g : CandidateWord → Nat) (f : CandidateWord → CandidateWord)
    (hgf : ∀ c, g (f c) = g c) :
    ∀ (l : List CandidateWord) (j : Nat), (modifyAt l j f).map g = l.map g := by
  intro l
  induction l with
  | nil => intro j; rfl
  | cons x xs ih =>
      intro j
      cases j with
      | zero =>
          unfold modifyAt
          simp only [List.get?_cons_zero]
          simp only [List.set_cons_zero, List.map_cons, hgf x]
      | succ j =>
          unfold modifyAt
          simp only [List.get?_cons_succ]
          cases hg : xs.get? j with
          | none => rfl
          | some c =>
              have hih := ih j
              unfold modifyAt at hih
              rw [hg] at hih
              simp only [List.set_cons_succ, List.map_cons]
              rw [hih]

theorem potential_modifyAt (B : Nat) (s : DState) (idx' : List (Str × Nat)) (j m : Nat)
    (f : CandidateWord → CandidateWord)
    (hgf : ∀ c, candWeight B (f c) = candWeight B c) :
    potential B ⟨modifyAt s.result j f, idx'⟩ m = potential B s m := by
  unfold potential
  simp only []
  rw [List.map_drop, List.map_drop, map_modifyAt (candWeight B) f hgf s.result j]

theorem candWeight_mk_nostem (B : Nat) (wd : Str) (ty : Nat) (ch : List (List Reason))
    (h : hasBit ty stemMask = false) :
    candWeight B ⟨wd, ty, ch⟩ = B ^ wd.length := by
  unfold candWeight
  simp only []
  rw [h]
  simp

theorem pow_bound_stem (R cl : Nat) :
    (R + 2) ^ (cl + 2) + R * (R + 2) ^ cl < (R + 2) ^ (cl + 3) := by
  have hx : 0 < (R + 2) ^ cl := pow_pos (by omega) cl
  have e2 : (R + 2) ^ (cl + 2) = (R + 2) ^ cl * (R + 2) ^ 2 := pow_add _ cl 2
  have e3 : (R + 2) ^ (cl + 3) = (R + 2) ^ cl * (R + 2) ^ 2 * (R + 2) := by
    rw [show cl + 3 = cl + 2 + 1 from rfl, pow_succ, e2]
  have h1 : R < (R + 2) ^ 2 := by
    have hsq : (R + 2) ^ 2 = (R + 2) * (R + 2) := pow_two _
    have h2 : R + 2 ≤ (R + 2) * (R + 2) := Nat.le_mul_of_pos_left _ (by omega)
    omega
  have h4 : (R + 2) ^ cl * R < (R + 2) ^ cl * ((R + 2) ^ 2) :=
    (Nat.mul_lt_mul_left hx).mpr h1
  have h5 : (R + 2) ^ cl * (R + 2) ^ 2 * 2 ≤ (R + 2) ^ cl * (R + 2) ^ 2 * (R + 2) :=
    Nat.mul_le_mul (le_refl _) (by omega)
  have hc : R * (R + 2) ^ cl = (R + 2) ^ cl * R := Nat.mul_comm _ _
  rw [e2, e3]
  omega

theorem pow_bound_nostem (R cl : Nat) :
    R * (R + 2) ^ cl < (R + 2) ^ (cl + 1) := by
  have hx : 0 < (R + 2) ^ cl := pow_pos (by omega) cl
  have e1 : (R + 2) ^ (cl + 1) = (R + 2) ^ cl * (R + 2) := pow_succ _ _
  have h4 : (R + 2) ^ cl * R < (R + 2) ^ cl * (R + 2) :=
    (Nat.mul_lt_mul_left hx).mpr (by omega)
  have hc : R * (R + 2) ^ cl = (R + 2) ^ cl * R := Nat.mul_comm _ _
  rw [e1]
  omega

theorem createNew_bound (B : Nat) (hB : 2 ≤ B) (s : DState) (idx' : List (Str × Nat))
    (nw : Str) (ty : Nat) (ch : List (List Reason)) (wlen : Nat)
    (hw : nw.length + 1 ≤ wlen) (hnb : ty &&& stemMask = 0) :
    s.result.length ≤ (DState.mk (s.result ++ [⟨nw, ty, ch⟩]) idx').result.length ∧
      ∀ m, m ≤ s.result.length →
        B * potential B ⟨s.result ++ [⟨nw, ty, ch⟩], idx'⟩ m ≤
          B * potential B s m + B ^ wlen := by
  constructor
  · simp
  intro m hm
  rw [potential_append B s [⟨nw, ty, ch⟩] idx' m hm]
  have hcw : candWeight B (⟨nw, ty, ch⟩ : CandidateWord) = B ^ nw.length := by
    refine candWeight_mk_nostem B nw ty ch ?_
    unfold hasBit
    rw [hnb]
    rfl
  simp only [List.map_cons, List.map_nil, List.sum_cons, List.sum_nil, Nat.add_zero]
  rw [hcw, Nat.mul_add]
  have h1 : B * B ^ nw.length = B ^ (nw.length + 1) := (pow_succ' B _).symm
  have h2 : B ^ (nw.length + 1) ≤ B ^ wlen := Nat.pow_le_pow_right (by omega) hw
  omega

theorem applyRule_bound (B : Nat) (hB : 2 ≤ B) (s : DState) (i : Nat) (w : Str) (t : Nat)
    (ending hira : Str) (rule : DeinflectRule)
    (hshrink : rule.toStr.length < rule.fromStr.length)
    (hstem : rule.toType &&& stemMask = 0)
    (hel : ending.length ≤ w.length)
    (hhl : hira.length = ending.length) :
    s.result.length ≤ (applyRule s i w t ending hira rule).result.length ∧
      ∀ m, m ≤ s.result.length →
        B * potential B (applyRule s i w t ending hira rule) m ≤
          B * potential B s m + B ^ w.length := by
  unfold applyRule
  simp only []
  split
  · exact ⟨le_rfl, fun m _ => Nat.le_add_right _ _⟩
  next h1 =>
  split
  · exact ⟨le_rfl, fun m _ => Nat.le_add_right _ _⟩
  next h2 =>
  have hor : ending = rule.fromStr ∨ hira = rule.fromStr := by
    by_contra hcon
    push_neg at hcon
    exact h2 ⟨hcon.1, hcon.2⟩
  have hfl : rule.fromStr.length ≤ w.length := by
    rcases hor with he | he
    · rw [← he]; exact hel
    · rw [← he]; omega
  have hnwlen : (strDropRight rule.fromStr.length w ++ rule.toStr).length + 1 ≤ w.length := by
    rw [List.length_append]
    unfold strDropRight
    rw [List.length_take]
    omega
  split
  · exact ⟨le_rfl, fun m _ => Nat.le_add_right _ _⟩
  next h3 =>
  split
  · exact ⟨le_rfl, fun m _ => Nat.le_add_right _ _⟩
  next h4 =>
  split
  next j hj =>
    split
    next existing hex =>
      split
      next hty =>
        split
        next hre =>
          refine ⟨?_, ?_⟩
          · simp only []
            rw [modifyAt_length]
          · intro m hm
            rw [potential_modifyAt B s s.idx j m
              (fun c => { c with reason_chains := rule.reasons :: c.reason_chains })
              (fun c => rfl)]
            exact Nat.le_add_right _ _
        next hre =>
          exact ⟨le_rfl, fun m _ => Nat.le_add_right _ _⟩
      next hty =>
        exact createNew_bound B hB s _ _ _ _ _ hnwlen hstem
    next hex =>
      exact createNew_bound B hB s _ _ _ _ _ hnwlen hstem
  next hj =>
    exact createNew_bound B hB s _ _ _ _ _ hnwlen hstem

theorem rulesFold_bound (B : Nat) (hB : 2 ≤ B) (i : Nat) (w : Str) (t : Nat)
    (ending hira : Str)
    (hel : ending.length ≤ w.length) (hhl : hira.length = ending.length) :
    ∀ (rs : List DeinflectRule),
      (∀ r ∈ rs, r.toStr.length < r.fromStr.length ∧ r.toType &&& stemMask = 0) →
      ∀ (s : DState),
        s.result.length ≤
          (rs.foldl (fun s' rule => applyRule s' i w t ending hira rule) s).result.length ∧
        ∀ m, m ≤ s.result.length →
          B * potential B
              (rs.foldl (fun s' rule => applyRule s' i w t ending hira rule) s) m ≤
            B * potential B s m + rs.length * B ^ w.length := by
  intro rs
  induction rs with
  | nil =>
      intro _ s
      exact ⟨le_rfl, fun m _ => by simp⟩
  | cons r rs ih =>
      intro hrs s
      have hr := hrs r (List.mem_cons_self r rs)
      obtain ⟨ha1, ha2⟩ := applyRule_bound B hB s i w t ending hira r hr.1 hr.2 hel hhl
      obtain ⟨hb1, hb2⟩ := ih (fun r' hr' => hrs r' (List.mem_cons_of_mem r hr'))
        (applyRule s i w t ending hira r)
      rw [List.foldl_cons]
      refine ⟨le_trans ha1 hb1, ?_⟩
      intro m hm
      have h1 := ha2 m hm
      have h2 := hb2 m (le_trans hm ha1)
      have hlen : (r :: rs).length * B ^ w.length =
          B ^ w.length + rs.length * B ^ w.length := by
        rw [List.length_cons, Nat.add_mul, Nat.one_mul]
        omega
      omega

theorem applyGroup_bound (B : Nat) (hB : 2 ≤ B) (s : DState) (i : Nat) (w : Str) (t : Nat)
    (g : RuleGroup)
    (hg : ∀ r ∈ g.rules, r.toStr.length < r.fromStr.length ∧ r.toType &&& stemMask = 0) :
    s.result.length ≤ (applyGroup s i w t g).result.length ∧
      ∀ m, m ≤ s.result.length →
        B * potential B (applyGroup s i w t g) m ≤
          B * potential B s m + g.rules.length * B ^ w.length := by
  unfold applyGroup
  split
  · exact ⟨le_rfl, fun m _ => Nat.le_add_right _ _⟩
  · simp only []
    exact rulesFold_bound B hB i w t (strTakeRight g.fromLen w)
      (kana_to_hiragana (strTakeRight g.fromLen w))
      (by unfold strTakeRight; rw [List.length_drop]; omega)
      (by unfold kana_to_hiragana; rw [List.length_map]) g.rules hg s

theorem totalRules_cons (g : RuleGroup) (gs : List RuleGroup) :
    totalRules (g :: gs) = g.rules.length + totalRules gs := by
  unfold totalRules
  rw [List.map_cons, List.sum_cons]

theorem groupsFold_bound (B : Nat) (hB : 2 ≤ B) (i : Nat) (w : Str) (t : Nat) :
    ∀ (gs : List RuleGroup),
      (∀ g ∈ gs, ∀ r ∈ g.rules,
        r.toStr.length < r.fromStr.length ∧ r.toType &&& stemMask = 0) →
      ∀ (s : DState),
        s.result.length ≤ (gs.foldl (fun s' g => applyGroup s' i w t g) s).result.length ∧
        ∀ m, m ≤ s.result.length →
          B * potential B (gs.foldl (fun s' g => applyGroup s' i w t g) s) m ≤
            B * potential B s m + totalRules gs * B ^ w.length := by
  intro gs
  induction gs with
  | nil => intro _ s; exact ⟨le_rfl, fun m _ => by simp [totalRules]⟩
  | cons g gs ih =>
      intro hgs s
      obtain ⟨ha1, ha2⟩ := applyGroup_bound B hB s i w t g (hgs g (List.mem_cons_self g gs))
      obtain ⟨hb1, hb2⟩ := ih (fun g' h' r hr => hgs g' (List.mem_cons_of_mem g h') r hr)
        (applyGroup s i w t g)
      rw [List.foldl_cons]
      refine ⟨le_trans ha1 hb1, ?_⟩
      intro m hm
      have h1 := ha2 m hm
      have h2 := hb2 m (le_trans hm ha1)
      have hlen : totalRules (g :: gs) * B ^ w.length =
          g.rules.length * B ^ w.length + totalRules gs * B ^ w.length := by
        rw [totalRules_cons, Nat.add_mul]
      omega

theorem stemForward_bound (B : Nat) (hB : 2 ≤ B) (s : DState) (c : CandidateWord) :
    s.result.length ≤ (stemForwardWith [0x308B] s c).result.length ∧
      ∀ m, m ≤ s.result.length →
        B * potential B (stemForwardWith [0x308B] s c) m ≤
          B * potential B s m + B ^ (c.word.length + 2) := by
  unfold stemForwardWith
  split
  · simp only []
    split
    · exact ⟨le_rfl, fun m _ => Nat.le_add_right _ _⟩
    · constructor
      · simp
      intro m hm
      rw [potential_append B s _ _ m hm]
      simp only [List.map_cons, List.map_nil, List.sum_cons, List.sum_nil, Nat.add_zero]
      rw [candWeight_mk_nostem B _ _ _ (by decide)]
      rw [List.length_append, List.length_singleton]
      rw [Nat.mul_add]
      have h1 : B * B ^ (c.word.length + 1) = B ^ (c.word.length + 2) :=
        (pow_succ' B _).symm
      omega
  · exact ⟨le_rfl, fun m _ => Nat.le_add_right _ _⟩

theorem processCandidate_bound (groups : List RuleGroup) (hssf : ShrinkStemFree groups)
    (s : DState) (i : Nat) (hi : i < s.result.length) :
    s.result.length ≤ (processCandidate groups s i).result.length ∧
      potential (totalRules groups + 2) (processCandidate groups s i) (i + 1) <
        potential (totalRules groups + 2) s i := by
  set B := totalRules groups + 2 with hBdef
  have hB : 2 ≤ B := by omega
  have hcx : ∃ c, s.result.get? i = some c := by
    rw [List.get?_eq_getElem?]
    exact ⟨_, List.getElem?_eq_getElem hi⟩
  obtain ⟨c, hc⟩ := hcx
  have hpot := potential_succ B s i c hc
  have hcpos : 0 < candWeight B c := by
    unfold candWeight
    exact pow_pos (by omega) _
  unfold processCandidate
  rw [hc]
  simp only []
  split
  · exact ⟨le_rfl, by omega⟩
  · obtain ⟨hf1, hf2⟩ := stemForward_bound B hB s c
    obtain ⟨hg1, hg2⟩ := groupsFold_bound B hB i c.word c.type groups hssf
      (stemForwardWith [0x308B] s c)
    refine ⟨le_trans hf1 hg1, ?_⟩
    have h2 := hg2 (i + 1) (le_trans hi hf1)
    by_cases hbit : hasBit c.type stemMask = true
    · have h1 := hf2 (i + 1) hi
      have hw : candWeight B c = B ^ (c.word.length + 2) := by
        unfold candWeight
        rw [hbit]
        simp
      have hkey : B ^ (c.word.length + 2) + totalRules groups * B ^ c.word.length <
          B ^ (c.word.length + 3) := by
        have hps := pow_bound_stem (totalRules groups) c.word.length
        rw [← hBdef] at hps
        exact hps
      have hmul : B * potential B
          (groups.foldl (fun s' g => applyGroup s' i c.word c.type g)
            (stemForwardWith [0x308B] s c)) (i + 1) < B * potential B s i := by
        rw [hpot, Nat.mul_add, hw]
        have e1 : B * B ^ (c.word.length + 2) = B ^ (c.word.length + 3) :=
          (pow_succ' B _).symm
        omega
      exact Nat.lt_of_mul_lt_mul_left hmul
    · have hbit' : hasBit c.type stemMask = false := by
        revert hbit
        cases hasBit c.type stemMask <;> simp
      have hs1 : stemForwardWith [0x308B] s c = s := by
        unfold stemForwardWith
        rw [hbit']
        rfl
      rw [hs1] at h2
      rw [hs1]
      have hw : candWeight B c = B ^ c.word.length := by
        unfold candWeight
        rw [hbit']
        simp
      have hkey : totalRules groups * B ^ c.word.length < B ^ (c.word.length + 1) := by
        have hps := pow_bound_nostem (totalRules groups) c.word.length
        rw [← hBdef] at hps
        exact hps
      have hmul : B * potential B
          (groups.foldl (fun s' g => applyGroup s' i c.word c.type g) s) (i + 1) <
          B * potential B s i := by
        rw [hpot, Nat.mul_add, hw]
        have e1 : B * B ^ c.word.length = B ^ (c.word.length + 1) := (pow_succ' B _).symm
        omega
      exact Nat.lt_of_mul_lt_mul_left hmul

theorem deinflectLoop_completes (groups : List RuleGroup) (hssf : ShrinkStemFree groups) :
    ∀ (fuel : Nat) (s : DState) (i : Nat),
      potential (totalRules groups + 2) s i ≤ fuel →
      ∃ s', deinflectLoop groups fuel s i = some s' := by
  intro fuel
  induction fuel with
  | zero =>
      intro s i hpot
      unfold deinflectLoop
      by_cases hi : i < s.result.length
      · exfalso
        have hcx : ∃ c, s.result.get? i = some c := by
          rw [List.get?_eq_getElem?]
          exact ⟨_, List.getElem?_eq_getElem hi⟩
        obtain ⟨c, hc⟩ := hcx
        have hps := potential_succ (totalRules groups + 2) s i c hc
        have hcpos : 0 < candWeight (totalRules groups + 2) c := by
          unfold candWeight
          exact pow_pos (by omega) _
        omega
      · rw [if_neg hi]
        exact ⟨s, rfl⟩
  | succ f ih =>
      intro s i hpot
      unfold deinflectLoop
      by_cases hi : i < s.result.length
      · rw [if_pos hi]
        obtain ⟨hl, hp⟩ := processCandidate_bound groups hssf s i hi
        exact ih (processCandidate groups s i) (i + 1) (by omega)
      · rw [if_neg hi]
        exact ⟨s, rfl⟩

/-- C4: the claim as stated is refuted by `c4_counterexample` (a
spec-conforming rule can grow the word into a stem type and make the closure
loop diverge).  Amended form: whenever every rule of the table strictly
shortens the word and lands in a stem-free type, `deinflect` completes — some
fuel (explicitly, the initial state's potential) makes the closure loop reach
the end of the result list and return a finite candidate list. -/
theorem c4_closure_terminates_for_shrinking_tables (groups : List RuleGroup)
    (h : ShrinkStemFree groups) (word : Str) :
    ∃ fuel L, deinflect groups fuel word = some L := by
  obtain ⟨s', hs'⟩ := deinflectLoop_completes groups h
    (potential (totalRules groups + 2) (initState word) 0) (initState word) 0 le_rfl
  refine ⟨potential (totalRules groups + 2) (initState word) 0,
    s'.result.filter (fun r => hasBit r.type WordType.All), ?_⟩
  unfold deinflect
  rw [hs']
  rfl

/-- Witness for the amended C4 theorem: the empty rule table is
shrinking/stem-free, and `deinflect` completes on the word あ. -/
theorem c4_closure_terminates_witness :
    ShrinkStemFree ([] : List RuleGroup) ∧
      ∃ fuel L, deinflect [] fuel [0x3042] = some L :=
  ⟨fun g hg => absurd hg (List.not_mem_nil g),
   c4_closure_terminates_for_shrinking_tables []
     (fun g hg => absurd hg (List.not_mem_nil g)) [0x3042]⟩

end Tentoku
